import Mathlib

/-!
# Entity Graph Construction Engine — verification development

A shallow embedding of the climate-scanner entity-network service:
the HTTP request layer is translated from
`src/climate_scanner/entity_network/graph_demo/app.py`; the Graph
Construction Engine, Store Adapter and Query/Mutation facades (the
`GraphConstructor` object imported by `app.py` from `neo4j_model`, whose
source is not part of the repository snapshot) are modelled from the
specification (`spec.md` §3, §4).
-/

deriving instance DecidableEq for Except

namespace ClimateScanner

/-- Modelled from the spec: the optional attribute bag attached to each
entity/node (§3 "Entity Attributes", §6 "Batch input shape").  Each field
is `Option` to distinguish present-with-value from null/absent. -/
structure AttrBag where
  entityType : Option (List String)
  wiki_classes : Option (List String)
  url : Option String
  dbPediaIri : Option String
deriving DecidableEq, Repr

/-- The all-absent attribute bag. -/
def AttrBag.none : AttrBag := ⟨Option.none, Option.none, Option.none, Option.none⟩

/-- Modelled from the spec: a raw entity tuple `[name, category, attributes]`
as handed to the Engine (§6 "Batch input shape"). -/
structure RawEntity where
  name : String
  category : String
  attrs : AttrBag
deriving DecidableEq, Repr

/-- Whitespace test used for trimming. -/
def isWS (c : Char) : Bool :=
  decide (c = ' ') || decide (c = '\t') || decide (c = '\n') || decide (c = '\r')

/-- Strip leading and trailing whitespace from a character list. -/
def trimChars (l : List Char) : List Char :=
  ((l.dropWhile isWS).reverse.dropWhile isWS).reverse

/-- Modelled from the spec: canonicalization used for the dedup key
(§3 "Dedup key": "(name, category) normalized (case/whitespace-folded)",
§4.1 "trim, case-fold"). -/
def foldKey (s : String) : String := ⟨trimChars (s.data.map Char.toLower)⟩

/-- Modelled from the spec: the normalizer's output record — original
display values plus the computed dedup key (§4.1). -/
structure NormalizedEntity where
  name : String
  category : String
  attrs : AttrBag
  dedupKey : String × String
deriving DecidableEq, Repr

/-- Modelled from the spec: the Engine error kinds of §7. -/
inductive EngineError where
  | validation
  | notFound
  | store
deriving DecidableEq, Repr

/-- Modelled from the spec: `normalize(rawEntity) → NormalizedEntity |
fails with ValidationError` (§4.1).  Rejects when `name` is
empty/whitespace-only or `category` is empty; preserves display values;
computes the dedup key. -/
def normalize (e : RawEntity) : Except EngineError NormalizedEntity :=
  if trimChars e.name.data = [] then .error .validation
  else if e.category = "" then .error .validation
  else .ok ⟨e.name, e.category, e.attrs, (foldKey e.name, foldKey e.category)⟩

/-- Modelled from the spec: step 1 of `construct` — normalize every entity,
fail-fast on the first validation error (§4.3). -/
def normalizeAll : List RawEntity → Except EngineError (List NormalizedEntity)
  | [] => .ok []
  | e :: es =>
    match normalize e with
    | .error err => .error err
    | .ok ne =>
      match normalizeAll es with
      | .error err => .error err
      | .ok nes => .ok (ne :: nes)

/-- Modelled from the spec: a stored node — store-assigned immutable `uid`,
display attributes (§3 "Node"). -/
structure Node where
  uid : Nat
  name : String
  category : String
  attrs : AttrBag
deriving DecidableEq, Repr

/-- The dedup key of a stored node, derived from its stored display
values (§3 "Dedup key"). -/
def Node.dedupKey (n : Node) : String × String := (foldKey n.name, foldKey n.category)

/-- Modelled from the spec: the in-memory reference implementation of the
Graph Store Adapter (§4.2, §9 "Polymorphic storage backend"): a node list,
an edge list of unordered pairs (stored canonically with the smaller uid
first), and the next fresh uid. -/
structure Store where
  nodes : List Node
  edges : List (Nat × Nat)
  nextUid : Nat
deriving DecidableEq, Repr

def emptyStore : Store := ⟨[], [], 0⟩

/-- Modelled from the spec: `findByDedupKey(key) → Node | absent` (§4.2). -/
def findByDedupKey (s : Store) (k : String × String) : Option Node :=
  s.nodes.find? fun n => decide (n.dedupKey = k)

/-- The uid a dedup key resolves to, if any. -/
def resolveUid (s : Store) (k : String × String) : Option Nat :=
  (findByDedupKey s k).map Node.uid

/-- Modelled from the spec: `createNode(attrs) → Node` — assigns a fresh
`uid` (§4.2). -/
def createNode (s : Store) (ne : NormalizedEntity) : Store × Node :=
  let n : Node := ⟨s.nextUid, ne.name, ne.category, ne.attrs⟩
  ({ s with nodes := s.nodes ++ [n], nextUid := s.nextUid + 1 }, n)

/-- Modelled from the spec: per-field merge policy (§4.3 step 2): a
present/non-null incoming field overwrites, a null/absent incoming field
leaves the stored value untouched. -/
def mergeField {α : Type} : Option α → Option α → Option α
  | some v, _ => some v
  | Option.none, old => old

/-- Modelled from the spec: attribute-bag merge, fieldwise (§4.3 step 2). -/
def mergeBag (inc old : AttrBag) : AttrBag :=
  ⟨mergeField inc.entityType old.entityType,
   mergeField inc.wiki_classes old.wiki_classes,
   mergeField inc.url old.url,
   mergeField inc.dbPediaIri old.dbPediaIri⟩

/-- Modelled from the spec: `mergeAttributes(uid, attrs)` (§4.2) — merges
the incoming bag into the node with the given uid. -/
def mergeAttributes (s : Store) (uid : Nat) (inc : AttrBag) : Store :=
  { s with nodes := s.nodes.map fun n =>
      if n.uid = uid then { n with attrs := mergeBag inc n.attrs } else n }

/-- Modelled from the spec: §4.3 step 2 — resolve one normalized entity to
a node: look up by dedup key; if absent, create; if present, merge.
Returns the new store, the resolved uid,
and whether a node was created (`true`) or merged (`false`). -/
def resolveEntity (s : Store) (ne : NormalizedEntity) : Store × Nat × Bool :=
  match findByDedupKey s ne.dedupKey with
  | some n => (mergeAttributes s n.uid ne.attrs, n.uid, false)
  | Option.none =>
    let p := createNode s ne
    (p.1, p.2.uid, true)

/-- Modelled from the spec: resolve a whole batch in order, returning the
final store and the resolution trace (uid, created?) per entity. -/
def resolveAll : Store → List NormalizedEntity → Store × List (Nat × Bool)
  | s, [] => (s, [])
  | s, ne :: nes =>
    let p := resolveEntity s ne
    let q := resolveAll p.1 nes
    (q.1, p.2 :: q.2)

/-- Canonical representation of the unordered pair `{a, b}`. -/
def canonPair (a b : Nat) : Nat × Nat := if a ≤ b then (a, b) else (b, a)

/-- Modelled from the spec: `createRelationshipIfAbsent(uidA, uidB)` —
idempotent, no-op if present, never creates a self-pair (§4.2, §3
"Relationship"). -/
def createRelationshipIfAbsent (s : Store) (a b : Nat) : Store :=
  if a = b then s
  else if canonPair a b ∈ s.edges then s
  else { s with edges := s.edges ++ [canonPair a b] }

/-- Connect `x` with every element of the list. -/
def connectOne (s : Store) (x : Nat) : List Nat → Store
  | [] => s
  | y :: ys => connectOne (createRelationshipIfAbsent s x y) x ys

/-- Modelled from the spec: §4.3 step 3 — generate a relationship for every
unordered pair of distinct uids in the list. -/
def connectPairs : Store → List Nat → Store
  | s, [] => s
  | s, x :: xs => connectPairs (connectOne s x xs) xs

/-- All unordered pairs (canonically represented) drawn from a list. -/
def allPairs : List Nat → List (Nat × Nat)
  | [] => []
  | x :: xs => xs.map (canonPair x) ++ allPairs xs

/-- Modelled from the spec: the structured result of `construct`
(§4.3 "Returns: counts/lists of nodes created vs. merged, and
relationships newly created"). -/
structure ConstructResult where
  createdNodes : List Nat
  mergedNodes : List Nat
  relationshipsCreated : List (Nat × Nat)
deriving DecidableEq, Repr

/-- The distinct resolved uids of a trace — batch-internal duplicates
collapse to one identifier before pairing (§4.3 step 3). -/
def resolvedUids (trace : List (Nat × Bool)) : List Nat :=
  (trace.map Prod.fst).dedup

/-- Modelled from the spec: the Graph Construction Engine's
`construct(rawEntities) → {createdNodes, mergedNodes, relationshipsCreated}
| fails with ValidationError` (§4.3). -/
def construct (s : Store) (batch : List RawEntity) :
    Except EngineError (Store × ConstructResult) :=
  match normalizeAll batch with
  | .error err => .error err
  | .ok nes =>
    let p := resolveAll s nes
    let uids := resolvedUids p.2
    let s3 := connectPairs p.1 uids
    .ok (s3,
      { createdNodes := (p.2.filter fun t => t.2).map Prod.fst,
        mergedNodes := (p.2.filter fun t => !t.2).map Prod.fst,
        relationshipsCreated := s3.edges.drop p.1.edges.length })

/-- Modelled from the spec: `listNodes(categoryFilter)` — all nodes whose
`category` equals the filter (case-sensitive exact match) when provided,
else all nodes (§4.4). -/
def get_nodes (s : Store) (filter : Option String) : List Node :=
  match filter with
  | Option.none => s.nodes
  | some c => s.nodes.filter fun n => decide (n.category = c)

/-- Modelled from the spec: `getNode(uid) → Node | absent` (§4.2). -/
def getNode (s : Store) (uid : Nat) : Option Node :=
  s.nodes.find? fun n => decide (n.uid = uid)

/-- Modelled from the spec: `deleteNode(uid) → bool` — removes the node and
all incident relationships, `false` if not found (§4.2, §4.5). -/
def delete_node (s : Store) (uid : Nat) : Store × Bool :=
  if s.nodes.any fun n => decide (n.uid = uid) then
    (⟨s.nodes.filter fun n => decide (n.uid ≠ uid),
      s.edges.filter fun e => decide (e.1 ≠ uid) && decide (e.2 ≠ uid),
      s.nextUid⟩, true)
  else (s, false)

/-- Modelled from the spec: `updateNode(uid, attrs)` — overwrite-if-present,
keep-if-absent merge on an existing node, NotFound if `uid` unknown
(§4.5). -/
def update_node (s : Store) (uid : Nat) (inc : AttrBag) : Except EngineError Store :=
  match getNode s uid with
  | some _ => .ok (mergeAttributes s uid inc)
  | Option.none => .error .notFound

/-! ## The HTTP request layer, translated from `app.py` -/

/-- From `app.py` line 31: the configured shared secret. -/
def SWAGGER_KEY : String := "1234"

/-- A JSON-ish response body with a status and a message, as returned by
the handlers in `app.py`. -/
structure ApiResponse where
  status : Nat
  message : String
deriving DecidableEq, Repr

/-- Outcome of the `key_required` gate. -/
inductive AuthCheck where
  | missingKey
  | wrongKey
  | authorized
deriving DecidableEq, Repr

/-- Python truthiness test applied by `if not end_key:` in `app.py` line
56: `None` and the empty string are falsy. -/
def pyFalsy : Option String → Bool
  | Option.none => true
  | some s => decide (s = "")

/-- From `app.py` lines 48-65 (`key_required`): `end_key` is the
Authorization header when present, else `None`; `if not end_key` rejects
with "Api Key required"; a key different from `SWAGGER_KEY` rejects with
"Api Key Incorrect"; otherwise the wrapped handler runs. -/
def key_required (authHeader : Option String) : AuthCheck :=
  if pyFalsy authHeader then .missingKey
  else if authHeader ≠ some SWAGGER_KEY then .wrongKey
  else .authorized

/-- The response body `key_required` returns on rejection (`app.py` lines
56-60), `Option.none` when the wrapped handler is allowed to run. -/
def authResponse : AuthCheck → Option ApiResponse
  | .missingKey => some ⟨401, "Api Key required"⟩
  | .wrongKey => some ⟨401, "Api Key Incorrect"⟩
  | .authorized => Option.none

/-- A guarded endpoint as produced by the `@key_required` decorator: on
rejection the store is untouched and the 401 body is returned; otherwise
the handler body runs. -/
def guardedHandler (authHeader : Option String)
    (handler : Store → Store × ApiResponse) (s : Store) : Store × ApiResponse :=
  match key_required authHeader with
  | .missingKey => (s, ⟨401, "Api Key required"⟩)
  | .wrongKey => (s, ⟨401, "Api Key Incorrect"⟩)
  | .authorized => handler s

/-- From `app.py` lines 153-172 (`ManageNodes.get`): read the optional
`entityType` query parameter (absent → `None`) and pass it straight to
`graph.get_nodes`; always status 200 with the node list (the model
`get_nodes` is total, so the `except` branches are unreachable). -/
def get_handler (s : Store) (entityType : Option String) : Nat × List Node :=
  (200, get_nodes s entityType)

/-- From `app.py` lines 239-260 (`ManageNodes.delete`): call
`graph.delete_node(uid)`; status 200 when it reports success.  On a falsy
result the handler calls `name_space.abort(400)` *inside* the `try`
block; the `BadRequest` it raises is not a `KeyError`, so the handler's
own `except Exception` clause catches it and re-aborts with 500 — the
observable status for a falsy delete is therefore 500, not the 400 the
in-try abort names. -/
def delete_handler (s : Store) (uid : Nat) : Store × Nat :=
  let p := delete_node s uid
  (p.1, if p.2 then 200 else 500)

/-- How an engine call surfaces to the handler in `app.py`: a truthy
return, a falsy return, a raised `KeyError`, or another raised
exception. -/
inductive CallOutcome where
  | ok
  | returnedFalse
  | raisedKeyError
  | raisedException
deriving DecidableEq, Repr

/-- From `app.py` lines 188-201 (`ManageNodes.post`, identically
`put`/`delete`): a truthy result returns 200.  A falsy result calls
`name_space.abort(400)` *inside* the `try`; the `BadRequest` it raises is
caught by the handler's own `except Exception` and re-aborted as 500, so
the observable status is 500.  A `KeyError` from the payload access is
caught by `except KeyError` and aborted as 400 (an abort raised inside an
`except` clause propagates past the sibling clauses, so this 400
stands).  Any other exception aborts with 500. -/
def handlerStatus : CallOutcome → Nat
  | .ok => 200
  | .returnedFalse => 500
  | .raisedKeyError => 400
  | .raisedException => 500

/-- Modelled from the spec: how the Engine (not in the repository
snapshot) surfaces each error kind to the request layer — validation and
not-found failures surface as a falsy return value (as `create_nodes` /
`delete_node` do in `app.py`), store/transient failures as a raised
exception (§6 "Request Layer", §7). -/
def surfaceFailure : EngineError → CallOutcome
  | .validation => .returnedFalse
  | .notFound => .returnedFalse
  | .store => .raisedException

/-- The HTTP status under which the request layer reports each Engine
error kind. -/
def statusOfKind (k : EngineError) : Nat := handlerStatus (surfaceFailure k)

/-! ## Basic lemmas about the normalizer -/

lemma normalize_error_eq {e : RawEntity} {err : EngineError}
    (h : normalize e = .error err) : err = .validation := by
  unfold normalize at h
  split at h
  · injection h with h1
    exact h1.symm
  · split at h
    · injection h with h1
      exact h1.symm
    · exact Except.noConfusion h

lemma normalizeAll_error : ∀ {batch : List RawEntity} {err : EngineError},
    normalizeAll batch = .error err → err = .validation := by
  intro batch
  induction batch with
  | nil => intro err h; simp [normalizeAll] at h
  | cons e es ih =>
    intro err h
    unfold normalizeAll at h
    cases he : normalize e with
    | error err2 =>
      rw [he] at h
      injection h with h1
      exact h1 ▸ normalize_error_eq he
    | ok ne =>
      rw [he] at h
      cases hr : normalizeAll es with
      | error err2 =>
        rw [hr] at h
        injection h with h1
        exact h1 ▸ ih hr
      | ok nes =>
        rw [hr] at h
        exact Except.noConfusion h

lemma normalizeAll_mem_invalid : ∀ {batch : List RawEntity} {e : RawEntity},
    e ∈ batch → (trimChars e.name.data = [] ∨ e.category = "") →
    ∃ err, normalizeAll batch = .error err := by
  intro batch
  induction batch with
  | nil => intro e hmem _; cases hmem
  | cons x xs ih =>
    intro e hmem hbad
    rcases List.mem_cons.mp hmem with rfl | hmem'
    · have hne : ∃ err, normalize e = .error err := by
        unfold normalize
        by_cases h1 : trimChars e.name.data = []
        · rw [if_pos h1]
          exact ⟨_, rfl⟩
        · rw [if_neg h1]
          have h2 : e.category = "" := by tauto
          rw [if_pos h2]
          exact ⟨_, rfl⟩
      rcases hne with ⟨err, herr⟩
      refine ⟨err, ?_⟩
      unfold normalizeAll
      rw [herr]
    · cases hx : normalize x with
      | error err2 =>
        refine ⟨err2, ?_⟩
        unfold normalizeAll
        rw [hx]
      | ok nx =>
        rcases ih hmem' hbad with ⟨err, herr⟩
        refine ⟨err, ?_⟩
        unfold normalizeAll
        rw [hx, herr]

/-! ## Claim theorems: validation, query facade, status codes, auth -/

/-- C4: validation is fail-fast and atomic — for every batch containing at
least one entity whose name is empty or whitespace-only or whose category
is empty, `construct` fails with `ValidationError`.  Since `construct`
produces a successor store only in the `.ok` case, an `.error` result
commits nothing: the caller's store is completely unchanged, including for
valid entities preceding the invalid one. -/
theorem construct_rejects_invalid_batch (s : Store) (batch : List RawEntity)
    (e : RawEntity) (he : e ∈ batch)
    (hbad : trimChars e.name.data = [] ∨ e.category = "") :
    construct s batch = .error .validation := by
  rcases normalizeAll_mem_invalid he hbad with ⟨err, herr⟩
  have hv : err = .validation := normalizeAll_error herr
  subst hv
  unfold construct
  rw [herr]

/-- Witness for C4: a batch whose second entity has a whitespace-only name
is rejected wholesale with a validation error. -/
theorem construct_rejects_invalid_batch_witness :
    construct emptyStore
      [⟨"Ford", "ORG", AttrBag.none⟩, ⟨"  ", "GPE", AttrBag.none⟩]
      = .error .validation :=
  construct_rejects_invalid_batch emptyStore
    [⟨"Ford", "ORG", AttrBag.none⟩, ⟨"  ", "GPE", AttrBag.none⟩]
    ⟨"  ", "GPE", AttrBag.none⟩ (by decide) (Or.inl (by decide))

/-- C7: `listNodes` with a category filter returns exactly the nodes whose
stored category equals the filter string (case-sensitive); with no filter
it returns all nodes; the GET handler passes the optional `entityType`
query parameter straight to the query and returns the (possibly empty)
result as a normal status-200 response. -/
theorem list_nodes_filter_spec (s : Store) :
    (∀ c n, n ∈ get_nodes s (some c) ↔ n ∈ s.nodes ∧ n.category = c) ∧
    get_nodes s Option.none = s.nodes ∧
    (∀ et, get_handler s et = (200, get_nodes s et)) := by
  refine ⟨fun c n => ?_, rfl, fun et => rfl⟩
  simp [get_nodes, List.mem_filter]

/-- Counterexample to C8 as stated: a validation failure — surfaced to
the handler as a falsy return, as `app.py`'s calling convention shows —
is reported with HTTP status 500, not 400: the in-try
`name_space.abort(400)` raises `BadRequest`, which the handler's own
`except Exception` catches and re-aborts as 500.  The not-found kind is
likewise reported as 500, so both non-store kinds land on the
store-failure status. -/
theorem status_by_error_kind_counterexample :
    statusOfKind .validation = 500 ∧
    statusOfKind .validation ≠ 400 ∧
    statusOfKind .notFound = 500 ∧
    statusOfKind .notFound ≠ 400 ∧
    statusOfKind .notFound ≠ 404 := by
  refine ⟨rfl, by decide, rfl, by decide, by decide⟩

/-- C8 (amended): the request layer's status is a function of how the
call surfaces, and the `abort(400)` on the falsy path is collapsed by the
handler's blanket `except Exception`: an Engine failure surfaced as a
falsy return — validation or not-found — is reported as 500, the same
status as a store/transient failure; a `KeyError` from the payload access
is reported as 400; a truthy result as 200; and no failure kind is ever
reported under the success status. -/
theorem status_collapsed_by_blanket_except :
    handlerStatus .ok = 200 ∧
    handlerStatus .returnedFalse = 500 ∧
    handlerStatus .raisedKeyError = 400 ∧
    handlerStatus .raisedException = 500 ∧
    statusOfKind .validation = 500 ∧
    statusOfKind .notFound = 500 ∧
    statusOfKind .store = 500 ∧
    (∀ k, statusOfKind k ≠ 200) := by
  refine ⟨rfl, rfl, rfl, rfl, rfl, rfl, rfl, ?_⟩
  intro k
  cases k <;> decide

/-- Counterexample to C9 as stated: the Authorization header `some ""` is
present and different from the configured key, yet `key_required` answers
with the body `{'status': 401, 'message': 'Api Key required'}` — the
"header absent" message — because Python's `if not end_key:` treats the
empty string like a missing header. -/
theorem key_required_empty_header_counterexample :
    (some "" ≠ (Option.none : Option String)) ∧
    ("" ≠ SWAGGER_KEY) ∧
    key_required (some "") = .missingKey ∧
    authResponse (key_required (some "")) = some ⟨401, "Api Key required"⟩ := by
  refine ⟨by decide, by decide, by decide, by decide⟩

/-- C9 (amended): every endpoint runs its body iff the Authorization
header equals the configured key; an absent or present-but-empty header is
rejected with `{'status': 401, 'message': 'Api Key required'}`, a present
non-empty different header with `{'status': 401, 'message': 'Api Key
Incorrect'}`, and in every rejection case the store is unchanged and the
graph/extractor operation is never invoked. -/
theorem key_required_amended (h : Option String)
    (f : Store → Store × ApiResponse) (s : Store) :
    (key_required h = .authorized ↔ h = some SWAGGER_KEY) ∧
    (h = Option.none ∨ h = some "" →
      guardedHandler h f s = (s, ⟨401, "Api Key required"⟩)) ∧
    (∀ k, h = some k → k ≠ "" → k ≠ SWAGGER_KEY →
      guardedHandler h f s = (s, ⟨401, "Api Key Incorrect"⟩)) ∧
    (key_required h ≠ .authorized → (guardedHandler h f s).1 = s) := by
  refine ⟨?_, ?_, ?_, ?_⟩
  · cases h with
    | none => simp [key_required, pyFalsy]
    | some k =>
      by_cases hk : k = ""
      · subst hk
        simp [key_required, pyFalsy, SWAGGER_KEY]
      · simp only [key_required, pyFalsy, decide_eq_true_eq]
        rw [if_neg hk]
        by_cases hkey : some k = some SWAGGER_KEY
        · rw [if_neg (by simp [hkey])]
          simp [Option.some.injEq] at hkey ⊢
          exact hkey
        · rw [if_pos hkey]
          constructor
          · intro hcon; exact absurd hcon (by decide)
          · intro hcon; exact absurd hcon hkey
  · intro hcase
    rcases hcase with rfl | rfl
    · rfl
    · rfl
  · intro k hk hne hnk
    subst hk
    have h1 : pyFalsy (some k) = false := by
      simp [pyFalsy, hne]
    have h2 : key_required (some k) = .wrongKey := by
      unfold key_required
      rw [h1]
      simp only [Bool.false_eq_true, if_false]
      rw [if_pos (by simp [hnk])]
    unfold guardedHandler
    rw [h2]
  · intro hna
    unfold guardedHandler
    cases hkr : key_required h with
    | missingKey => rfl
    | wrongKey => rfl
    | authorized => exact absurd hkr hna

/-- Witness for C9's amended theorem: at the concrete header `some "9999"`
(present, non-empty, incorrect) the response is the 401 "Api Key
Incorrect" body and the store is unchanged. -/
theorem key_required_amended_witness :
    guardedHandler (some "9999") (fun st => (st, ⟨200, "ok"⟩)) emptyStore
      = (emptyStore, ⟨401, "Api Key Incorrect"⟩) :=
  (key_required_amended (some "9999") (fun st => (st, ⟨200, "ok"⟩))
    emptyStore).2.2.1 "9999" rfl (by decide) (by decide)

/-- Counterexample to C6 as stated: deleting a uid that does not exist
(uid 0 on the empty store) makes `delete_node` report `false`, and the
HTTP layer responds 500, not the 400 the claim states — `app.py`'s in-try
`name_space.abort(400)` raises `BadRequest`, which the handler's own
`except Exception` catches and re-aborts as 500. -/
theorem delete_http_status_counterexample :
    (delete_node emptyStore 0).2 = false ∧
    (delete_handler emptyStore 0).2 = 500 ∧
    (delete_handler emptyStore 0).2 ≠ 400 := by
  refine ⟨rfl, rfl, by decide⟩

/-- C6 (amended): `deleteNode(uid)` reports success exactly when a node
with that uid existed; on success no relationship referencing the uid
remains; after the call the node is gone; edges and nodes not involving
the uid are kept; and the HTTP layer answers 200 exactly when the delete
reported success, 500 otherwise (the in-try abort(400) is converted to
500 by the handler's blanket `except Exception`). -/
theorem delete_node_spec_amended (s : Store) (uid : Nat) :
    ((delete_node s uid).2 = true ↔ ∃ n ∈ s.nodes, n.uid = uid) ∧
    ((delete_node s uid).2 = true →
      ∀ e ∈ (delete_node s uid).1.edges, e.1 ≠ uid ∧ e.2 ≠ uid) ∧
    getNode (delete_node s uid).1 uid = Option.none ∧
    (∀ e ∈ s.edges, e.1 ≠ uid → e.2 ≠ uid → e ∈ (delete_node s uid).1.edges) ∧
    (∀ n ∈ s.nodes, n.uid ≠ uid → n ∈ (delete_node s uid).1.nodes) ∧
    ((delete_handler s uid).2 = 200 ↔ (delete_node s uid).2 = true) ∧
    ((delete_handler s uid).2 = 200 ∨ (delete_handler s uid).2 = 500) := by
  by_cases hex : (s.nodes.any fun n => decide (n.uid = uid)) = true
  · have hdel : delete_node s uid =
        (⟨s.nodes.filter fun n => decide (n.uid ≠ uid),
          s.edges.filter fun e => decide (e.1 ≠ uid) && decide (e.2 ≠ uid),
          s.nextUid⟩, true) := by
      unfold delete_node
      rw [if_pos hex]
    refine ⟨?_, ?_, ?_, ?_, ?_, ?_, ?_⟩
    · rw [hdel]
      simp only [true_iff]
      simpa using List.any_eq_true.mp hex
    · intro _ e hmem
      rw [hdel] at hmem
      simp only [List.mem_filter, Bool.and_eq_true, decide_eq_true_eq] at hmem
      exact ⟨hmem.2.1, hmem.2.2⟩
    · rw [hdel]
      unfold getNode
      apply List.find?_eq_none.mpr
      intro n hn
      simp only [List.mem_filter, decide_eq_true_eq] at hn ⊢
      exact hn.2
    · intro e hmem h1 h2
      rw [hdel]
      simp only [List.mem_filter, Bool.and_eq_true, decide_eq_true_eq]
      exact ⟨hmem, h1, h2⟩
    · intro n hn hne
      rw [hdel]
      simp only [List.mem_filter, decide_eq_true_eq]
      exact ⟨hn, hne⟩
    · unfold delete_handler
      rw [hdel]
      show (200 : Nat) = 200 ↔ true = true
      decide
    · unfold delete_handler
      rw [hdel]
      show (200 : Nat) = 200 ∨ (200 : Nat) = 500
      exact Or.inl rfl
  · have hdel : delete_node s uid = (s, false) := by
      unfold delete_node
      rw [if_neg hex]
    have hnone : ∀ n ∈ s.nodes, n.uid ≠ uid := by
      intro n hn heq
      exact hex (List.any_eq_true.mpr ⟨n, hn, by simpa using heq⟩)
    refine ⟨?_, ?_, ?_, ?_, ?_, ?_, ?_⟩
    · rw [hdel]
      simp only [Bool.false_eq_true, false_iff]
      rintro ⟨n, hn, hu⟩
      exact hnone n hn hu
    · intro hcon
      rw [hdel] at hcon
      simp at hcon
    · rw [hdel]
      unfold getNode
      apply List.find?_eq_none.mpr
      intro n hn
      simpa using hnone n hn
    · intro e hmem _ _
      rw [hdel]
      exact hmem
    · intro n hn _
      rw [hdel]
      exact hn
    · unfold delete_handler
      rw [hdel]
      show (500 : Nat) = 200 ↔ false = true
      decide
    · unfold delete_handler
      rw [hdel]
      show (500 : Nat) = 200 ∨ (500 : Nat) = 500
      exact Or.inr rfl

/-- Witness for C6's amended theorem: deleting uid 0 from a two-node
store with an edge succeeds with HTTP 200 and leaves no relationship
touching uid 0. -/
theorem delete_node_spec_amended_witness :
    ((delete_node ⟨[⟨0, "a", "ORG", AttrBag.none⟩, ⟨1, "b", "ORG", AttrBag.none⟩],
        [(0, 1)], 2⟩ 0).2 = true ↔
      ∃ n ∈ [⟨0, "a", "ORG", AttrBag.none⟩, (⟨1, "b", "ORG", AttrBag.none⟩ : Node)],
        n.uid = 0) ∧
    ((delete_node ⟨[⟨0, "a", "ORG", AttrBag.none⟩, ⟨1, "b", "ORG", AttrBag.none⟩],
        [(0, 1)], 2⟩ 0).2 = true →
      ∀ e ∈ (delete_node ⟨[⟨0, "a", "ORG", AttrBag.none⟩, ⟨1, "b", "ORG", AttrBag.none⟩],
        [(0, 1)], 2⟩ 0).1.edges, e.1 ≠ 0 ∧ e.2 ≠ 0) ∧
    getNode (delete_node ⟨[⟨0, "a", "ORG", AttrBag.none⟩, ⟨1, "b", "ORG", AttrBag.none⟩],
        [(0, 1)], 2⟩ 0).1 0 = Option.none ∧
    (∀ e ∈ [((0 : Nat), (1 : Nat))], e.1 ≠ 0 → e.2 ≠ 0 →
      e ∈ (delete_node ⟨[⟨0, "a", "ORG", AttrBag.none⟩, ⟨1, "b", "ORG", AttrBag.none⟩],
        [(0, 1)], 2⟩ 0).1.edges) ∧
    (∀ n ∈ [⟨0, "a", "ORG", AttrBag.none⟩, (⟨1, "b", "ORG", AttrBag.none⟩ : Node)],
      n.uid ≠ 0 →
      n ∈ (delete_node ⟨[⟨0, "a", "ORG", AttrBag.none⟩, ⟨1, "b", "ORG", AttrBag.none⟩],
        [(0, 1)], 2⟩ 0).1.nodes) ∧
    ((delete_handler ⟨[⟨0, "a", "ORG", AttrBag.none⟩, ⟨1, "b", "ORG", AttrBag.none⟩],
        [(0, 1)], 2⟩ 0).2 = 200 ↔
      (delete_node ⟨[⟨0, "a", "ORG", AttrBag.none⟩, ⟨1, "b", "ORG", AttrBag.none⟩],
        [(0, 1)], 2⟩ 0).2 = true) ∧
    ((delete_handler ⟨[⟨0, "a", "ORG", AttrBag.none⟩, ⟨1, "b", "ORG", AttrBag.none⟩],
        [(0, 1)], 2⟩ 0).2 = 200 ∨
      (delete_handler ⟨[⟨0, "a", "ORG", AttrBag.none⟩, ⟨1, "b", "ORG", AttrBag.none⟩],
        [(0, 1)], 2⟩ 0).2 = 500) :=
  delete_node_spec_amended ⟨[⟨0, "a", "ORG", AttrBag.none⟩, ⟨1, "b", "ORG", AttrBag.none⟩],
    [(0, 1)], 2⟩ 0

/-! ## Merge-policy lemmas (C5) -/

/-- The attribute bag stored under a uid (`AttrBag.none` when absent). -/
def attrsAt (s : Store) (u : Nat) : AttrBag :=
  match getNode s u with
  | some n => n.attrs
  | Option.none => AttrBag.none

lemma getNode_mergeAttributes (s : Store) (uid : Nat) (inc : AttrBag) :
    getNode (mergeAttributes s uid inc) uid =
      (getNode s uid).map fun n => { n with attrs := mergeBag inc n.attrs } := by
  unfold getNode mergeAttributes
  induction s.nodes with
  | nil => rfl
  | cons n l ih =>
    by_cases h : n.uid = uid
    · simp [List.find?, h]
    · simpa [List.find?, h] using ih

/-- C5: attribute merge is overwrite-if-present, keep-if-absent, fieldwise,
both at the bag level and through `mergeAttributes` on the store; and the
Ford scenario: submitting `{name:"Ford", category:"ORG", entityType:null}`
and then `{name:"Ford", category:"ORG", entityType:["Company"]}` yields a
single node whose `entityType` is `["Company"]`. -/
theorem merge_overwrite_keep_policy :
    (∀ inc old : AttrBag,
      (∀ v, inc.entityType = some v → (mergeBag inc old).entityType = some v) ∧
      (inc.entityType = Option.none → (mergeBag inc old).entityType = old.entityType) ∧
      (∀ v, inc.wiki_classes = some v → (mergeBag inc old).wiki_classes = some v) ∧
      (inc.wiki_classes = Option.none → (mergeBag inc old).wiki_classes = old.wiki_classes) ∧
      (∀ v, inc.url = some v → (mergeBag inc old).url = some v) ∧
      (inc.url = Option.none → (mergeBag inc old).url = old.url) ∧
      (∀ v, inc.dbPediaIri = some v → (mergeBag inc old).dbPediaIri = some v) ∧
      (inc.dbPediaIri = Option.none → (mergeBag inc old).dbPediaIri = old.dbPediaIri)) ∧
    (∀ s uid inc n, getNode s uid = some n →
      getNode (mergeAttributes s uid inc) uid =
        some { n with attrs := mergeBag inc n.attrs }) ∧
    (construct emptyStore [⟨"Ford", "ORG", AttrBag.none⟩]
        = .ok (⟨[⟨0, "Ford", "ORG", AttrBag.none⟩], [], 1⟩, ⟨[0], [], []⟩) ∧
      construct ⟨[⟨0, "Ford", "ORG", AttrBag.none⟩], [], 1⟩
          [⟨"Ford", "ORG", ⟨some ["Company"], Option.none, Option.none, Option.none⟩⟩]
        = .ok (⟨[⟨0, "Ford", "ORG",
                  ⟨some ["Company"], Option.none, Option.none, Option.none⟩⟩], [], 1⟩,
               ⟨[], [0], []⟩)) := by
  refine ⟨fun inc old => ?_, fun s uid inc n hn => ?_, by decide, by decide⟩
  · refine ⟨fun v hv => ?_, fun hv => ?_, fun v hv => ?_, fun hv => ?_,
      fun v hv => ?_, fun hv => ?_, fun v hv => ?_, fun hv => ?_⟩ <;>
      simp [mergeBag, hv, mergeField]
  · rw [getNode_mergeAttributes, hn]
    rfl

/-- Witness for C5: instantiating the merge policy at concrete bags — a
present `entityType` overwrites, an absent `wiki_classes` keeps the stored
list. -/
theorem merge_overwrite_keep_policy_witness :
    (mergeBag ⟨some ["Company"], Option.none, Option.none, Option.none⟩
      ⟨Option.none, some ["sponsor"], some "u", Option.none⟩).entityType
        = some ["Company"] ∧
    (mergeBag ⟨some ["Company"], Option.none, Option.none, Option.none⟩
      ⟨Option.none, some ["sponsor"], some "u", Option.none⟩).wiki_classes
        = some ["sponsor"] :=
  ⟨(merge_overwrite_keep_policy.1
      ⟨some ["Company"], Option.none, Option.none, Option.none⟩
      ⟨Option.none, some ["sponsor"], some "u", Option.none⟩).1 ["Company"] rfl,
   ((merge_overwrite_keep_policy.1
      ⟨some ["Company"], Option.none, Option.none, Option.none⟩
      ⟨Option.none, some ["sponsor"], some "u", Option.none⟩).2.2.2.1) rfl⟩

/-! ## Store-evolution infrastructure shared by the construct claims -/

lemma resolveEntity_edges (s : Store) (ne : NormalizedEntity) :
    (resolveEntity s ne).1.edges = s.edges := by
  unfold resolveEntity
  cases findByDedupKey s ne.dedupKey <;> rfl

lemma resolveEntity_nextUid_mono (s : Store) (ne : NormalizedEntity) :
    s.nextUid ≤ (resolveEntity s ne).1.nextUid := by
  unfold resolveEntity
  cases findByDedupKey s ne.dedupKey with
  | none => exact Nat.le_succ _
  | some n => exact Nat.le_refl _

lemma resolveAll_edges : ∀ (nes : List NormalizedEntity) (s : Store),
    (resolveAll s nes).1.edges = s.edges := by
  intro nes
  induction nes with
  | nil => intro s; rfl
  | cons ne nes ih =>
    intro s
    show (resolveAll (resolveEntity s ne).1 nes).1.edges = s.edges
    rw [ih, resolveEntity_edges]

lemma resolveAll_nextUid_mono : ∀ (nes : List NormalizedEntity) (s : Store),
    s.nextUid ≤ (resolveAll s nes).1.nextUid := by
  intro nes
  induction nes with
  | nil => intro s; exact Nat.le_refl _
  | cons ne nes ih =>
    intro s
    exact Nat.le_trans (resolveEntity_nextUid_mono s ne) (ih (resolveEntity s ne).1)

/-- A uid has a node in the store. -/
def uidPresent (s : Store) (u : Nat) : Prop := ∃ n ∈ s.nodes, n.uid = u

/-- Every node's uid is below the store's fresh-uid counter. -/
def uidsBounded (s : Store) : Prop := ∀ n ∈ s.nodes, n.uid < s.nextUid

lemma uidPresent_mergeAttributes (s : Store) (uid : Nat) (inc : AttrBag) {u : Nat}
    (h : uidPresent s u) : uidPresent (mergeAttributes s uid inc) u := by
  rcases h with ⟨n, hn, hu⟩
  refine ⟨if n.uid = uid then { n with attrs := mergeBag inc n.attrs } else n, ?_, ?_⟩
  · exact List.mem_map.mpr ⟨n, hn, rfl⟩
  · by_cases hc : n.uid = uid
    · rw [if_pos hc]
      exact hu
    · rw [if_neg hc]
      exact hu

lemma uidPresent_resolveEntity (s : Store) (ne : NormalizedEntity) {u : Nat}
    (h : uidPresent s u) : uidPresent (resolveEntity s ne).1 u := by
  unfold resolveEntity
  cases hf : findByDedupKey s ne.dedupKey with
  | some n => exact uidPresent_mergeAttributes s n.uid ne.attrs h
  | none =>
    rcases h with ⟨n, hn, hu⟩
    exact ⟨n, List.mem_append_left _ hn, hu⟩

lemma resolveEntity_resolved_present (s : Store) (ne : NormalizedEntity) :
    uidPresent (resolveEntity s ne).1 (resolveEntity s ne).2.1 := by
  unfold resolveEntity
  cases hf : findByDedupKey s ne.dedupKey with
  | some n =>
    have hmem : n ∈ s.nodes := List.mem_of_find?_eq_some hf
    exact uidPresent_mergeAttributes s n.uid ne.attrs ⟨n, hmem, rfl⟩
  | none =>
    exact ⟨_, List.mem_append_right _ (List.mem_singleton_self _), rfl⟩

lemma uidPresent_resolveAll : ∀ (nes : List NormalizedEntity) (s : Store) {u : Nat},
    uidPresent s u → uidPresent (resolveAll s nes).1 u := by
  intro nes
  induction nes with
  | nil => intro s u h; exact h
  | cons ne nes ih =>
    intro s u h
    exact ih (resolveEntity s ne).1 (uidPresent_resolveEntity s ne h)

lemma trace_uids_present : ∀ (nes : List NormalizedEntity) (s : Store),
    ∀ t ∈ (resolveAll s nes).2, uidPresent (resolveAll s nes).1 t.1 := by
  intro nes
  induction nes with
  | nil => intro s t ht; cases ht
  | cons ne nes ih =>
    intro s t ht
    show uidPresent (resolveAll (resolveEntity s ne).1 nes).1 t.1
    have hht : t ∈ (resolveEntity s ne).2 :: (resolveAll (resolveEntity s ne).1 nes).2 := ht
    rcases List.mem_cons.mp hht with rfl | htail
    · exact uidPresent_resolveAll nes _ (resolveEntity_resolved_present s ne)
    · exact ih _ t htail

lemma uidsBounded_resolveEntity (s : Store) (ne : NormalizedEntity)
    (h : uidsBounded s) : uidsBounded (resolveEntity s ne).1 := by
  unfold resolveEntity
  cases hf : findByDedupKey s ne.dedupKey with
  | some n =>
    intro m hm
    rcases List.mem_map.mp hm with ⟨n0, hn0, rfl⟩
    by_cases hc : n0.uid = n.uid
    · rw [if_pos hc]
      exact h n0 hn0
    · rw [if_neg hc]
      exact h n0 hn0
  | none =>
    intro m hm
    rcases List.mem_append.mp hm with hl | hr
    · exact Nat.lt_trans (h m hl) (Nat.lt_succ_self _)
    · rw [List.mem_singleton.mp hr]
      exact Nat.lt_succ_self _

lemma trace_created_fresh : ∀ (nes : List NormalizedEntity) (s : Store),
    uidsBounded s →
    ∀ t ∈ (resolveAll s nes).2, t.2 = true → s.nextUid ≤ t.1 := by
  intro nes
  induction nes with
  | nil => intro s _ t ht; cases ht
  | cons ne nes ih =>
    intro s hb t ht hcr
    have hht : t ∈ (resolveEntity s ne).2 :: (resolveAll (resolveEntity s ne).1 nes).2 := ht
    rcases List.mem_cons.mp hht with rfl | htail
    · unfold resolveEntity at hcr ⊢
      cases hf : findByDedupKey s ne.dedupKey with
      | some n =>
        rw [hf] at hcr
        simp at hcr
      | none =>
        exact Nat.le_refl _
    · have := ih (resolveEntity s ne).1 (uidsBounded_resolveEntity s ne hb) t htail hcr
      exact Nat.le_trans (resolveEntity_nextUid_mono s ne) this

lemma createRelationshipIfAbsent_nodes (s : Store) (a b : Nat) :
    (createRelationshipIfAbsent s a b).nodes = s.nodes := by
  unfold createRelationshipIfAbsent
  split
  · rfl
  · split <;> rfl

lemma createRelationshipIfAbsent_nextUid (s : Store) (a b : Nat) :
    (createRelationshipIfAbsent s a b).nextUid = s.nextUid := by
  unfold createRelationshipIfAbsent
  split
  · rfl
  · split <;> rfl

lemma connectOne_nodes (x : Nat) : ∀ (ys : List Nat) (s : Store),
    (connectOne s x ys).nodes = s.nodes := by
  intro ys
  induction ys with
  | nil => intro s; rfl
  | cons y ys ih =>
    intro s
    show (connectOne (createRelationshipIfAbsent s x y) x ys).nodes = s.nodes
    rw [ih, createRelationshipIfAbsent_nodes]

lemma connectOne_nextUid (x : Nat) : ∀ (ys : List Nat) (s : Store),
    (connectOne s x ys).nextUid = s.nextUid := by
  intro ys
  induction ys with
  | nil => intro s; rfl
  | cons y ys ih =>
    intro s
    show (connectOne (createRelationshipIfAbsent s x y) x ys).nextUid = s.nextUid
    rw [ih, createRelationshipIfAbsent_nextUid]

lemma connectPairs_nodes : ∀ (l : List Nat) (s : Store),
    (connectPairs s l).nodes = s.nodes := by
  intro l
  induction l with
  | nil => intro s; rfl
  | cons x xs ih =>
    intro s
    show (connectPairs (connectOne s x xs) xs).nodes = s.nodes
    rw [ih, connectOne_nodes]

lemma connectPairs_nextUid : ∀ (l : List Nat) (s : Store),
    (connectPairs s l).nextUid = s.nextUid := by
  intro l
  induction l with
  | nil => intro s; rfl
  | cons x xs ih =>
    intro s
    show (connectPairs (connectOne s x xs) xs).nextUid = s.nextUid
    rw [ih, connectOne_nextUid]

lemma createRelationshipIfAbsent_edges_append (s : Store) (a b : Nat) :
    ∃ t, (createRelationshipIfAbsent s a b).edges = s.edges ++ t := by
  unfold createRelationshipIfAbsent
  split
  · exact ⟨[], (List.append_nil _).symm⟩
  · split
    · exact ⟨[], (List.append_nil _).symm⟩
    · exact ⟨[canonPair a b], rfl⟩

lemma connectOne_edges_append (x : Nat) : ∀ (ys : List Nat) (s : Store),
    ∃ t, (connectOne s x ys).edges = s.edges ++ t := by
  intro ys
  induction ys with
  | nil => intro s; exact ⟨[], (List.append_nil _).symm⟩
  | cons y ys ih =>
    intro s
    rcases ih (createRelationshipIfAbsent s x y) with ⟨t2, ht2⟩
    rcases createRelationshipIfAbsent_edges_append s x y with ⟨t1, ht1⟩
    exact ⟨t1 ++ t2, by
      show (connectOne (createRelationshipIfAbsent s x y) x ys).edges = _
      rw [ht2, ht1, List.append_assoc]⟩

lemma connectPairs_edges_append : ∀ (l : List Nat) (s : Store),
    ∃ t, (connectPairs s l).edges = s.edges ++ t := by
  intro l
  induction l with
  | nil => intro s; exact ⟨[], (List.append_nil _).symm⟩
  | cons x xs ih =>
    intro s
    rcases ih (connectOne s x xs) with ⟨t2, ht2⟩
    rcases connectOne_edges_append x xs s with ⟨t1, ht1⟩
    exact ⟨t1 ++ t2, by
      show (connectPairs (connectOne s x xs) xs).edges = _
      rw [ht2, ht1, List.append_assoc]⟩

/-- C10: on success, `construct` hands back the structured
`{createdNodes, mergedNodes, relationshipsCreated}` record — the
relationships created by this call are exactly the new suffix of the edge
list, every reported created node carries a uid that did not exist before
the call and exists afterwards, and every reported merged node exists
afterwards. -/
theorem construct_returns_structured_result (s : Store) (batch : List RawEntity)
    (s' : Store) (r : ConstructResult) (hb : uidsBounded s)
    (h : construct s batch = .ok (s', r)) :
    s'.edges = s.edges ++ r.relationshipsCreated ∧
    (∀ u ∈ r.createdNodes, (∀ n ∈ s.nodes, n.uid ≠ u) ∧ ∃ n ∈ s'.nodes, n.uid = u) ∧
    (∀ u ∈ r.mergedNodes, ∃ n ∈ s'.nodes, n.uid = u) := by
  unfold construct at h
  cases hna : normalizeAll batch with
  | error err =>
    rw [hna] at h
    exact Except.noConfusion h
  | ok nes =>
    rw [hna] at h
    injection h with h1
    rw [Prod.mk.injEq] at h1
    obtain ⟨hs, hr⟩ := h1
    subst hs
    subst hr
    rcases connectPairs_edges_append (resolvedUids (resolveAll s nes).2)
      (resolveAll s nes).1 with ⟨t, ht⟩
    refine ⟨?_, ?_, ?_⟩
    · show (connectPairs (resolveAll s nes).1 (resolvedUids (resolveAll s nes).2)).edges
        = s.edges ++ (connectPairs (resolveAll s nes).1
            (resolvedUids (resolveAll s nes).2)).edges.drop (resolveAll s nes).1.edges.length
      rw [ht, resolveAll_edges, List.drop_left]
    · intro u hu
      simp only [List.mem_map, List.mem_filter] at hu
      rcases hu with ⟨tr, ⟨htr, hcr⟩, rfl⟩
      constructor
      · intro n hn hne
        have hfresh : s.nextUid ≤ tr.1 := trace_created_fresh nes s hb tr htr hcr
        have hlt : n.uid < s.nextUid := hb n hn
        omega
      · have hp : uidPresent (resolveAll s nes).1 tr.1 := trace_uids_present nes s tr htr
        rcases hp with ⟨n, hn, hun⟩
        refine ⟨n, ?_, hun⟩
        rw [connectPairs_nodes]
        exact hn
    · intro u hu
      simp only [List.mem_map, List.mem_filter] at hu
      rcases hu with ⟨tr, ⟨htr, _⟩, rfl⟩
      have hp : uidPresent (resolveAll s nes).1 tr.1 := trace_uids_present nes s tr htr
      rcases hp with ⟨n, hn, hun⟩
      refine ⟨n, ?_, hun⟩
      rw [connectPairs_nodes]
      exact hn

/-- Witness for C10: a two-entity batch on the empty store reports created
nodes 0 and 1 and the single new relationship (0,1), decomposing the final
edge list. -/
theorem construct_returns_structured_result_witness :
    (⟨[⟨0, "a", "ORG", AttrBag.none⟩, ⟨1, "b", "GPE", AttrBag.none⟩],
        [(0, 1)], 2⟩ : Store).edges = ([] : List (Nat × Nat)) ++ [(0, 1)] ∧
    (∀ u ∈ [0, 1],
      (∀ n ∈ ([] : List Node), n.uid ≠ u) ∧
      ∃ n ∈ [⟨0, "a", "ORG", AttrBag.none⟩, (⟨1, "b", "GPE", AttrBag.none⟩ : Node)],
        n.uid = u) ∧
    (∀ u ∈ ([] : List Nat),
      ∃ n ∈ [⟨0, "a", "ORG", AttrBag.none⟩, (⟨1, "b", "GPE", AttrBag.none⟩ : Node)],
        n.uid = u) :=
  construct_returns_structured_result emptyStore
    [⟨"a", "ORG", AttrBag.none⟩, ⟨"b", "GPE", AttrBag.none⟩]
    ⟨[⟨0, "a", "ORG", AttrBag.none⟩, ⟨1, "b", "GPE", AttrBag.none⟩], [(0, 1)], 2⟩
    ⟨[0, 1], [], [(0, 1)]⟩ (by intro n hn; cases hn) (by decide)

/-! ## Full-connectivity machinery (C1) -/

/-- Well-formedness of the edge list: no duplicate relationship per
unordered pair, and canonical storage with the smaller uid first (so in
particular no self-pair). -/
def edgesWF (s : Store) : Prop :=
  s.edges.Nodup ∧ ∀ e ∈ s.edges, e.1 < e.2

lemma canonPair_fst_lt_snd {a b : Nat} (h : a ≠ b) :
    (canonPair a b).1 < (canonPair a b).2 := by
  unfold canonPair
  split <;> simp <;> omega

lemma canonPair_cases (a b : Nat) : canonPair a b = (a, b) ∨ canonPair a b = (b, a) := by
  unfold canonPair
  split
  · exact Or.inl rfl
  · exact Or.inr rfl

lemma canonPair_comm (a b : Nat) : canonPair a b = canonPair b a := by
  unfold canonPair
  split <;> split
  · have : a = b := Nat.le_antisymm (by assumption) (by assumption)
    rw [this]
  · rfl
  · rfl
  · omega

lemma canonPair_of_lt {a b : Nat} (h : a < b) : canonPair a b = (a, b) := by
  unfold canonPair
  rw [if_pos (Nat.le_of_lt h)]

lemma mem_createRelationshipIfAbsent (s : Store) (a b : Nat) (e : Nat × Nat) :
    e ∈ (createRelationshipIfAbsent s a b).edges ↔
      e ∈ s.edges ∨ (a ≠ b ∧ e = canonPair a b) := by
  unfold createRelationshipIfAbsent
  split
  · rename_i hab
    simp [hab]
  · rename_i hab
    split
    · rename_i hmem
      constructor
      · intro h
        exact Or.inl h
      · rintro (h | ⟨_, rfl⟩)
        · exact h
        · exact hmem
    · simp only [List.mem_append, List.mem_singleton]
      constructor
      · rintro (h | rfl)
        · exact Or.inl h
        · exact Or.inr ⟨hab, rfl⟩
      · rintro (h | ⟨_, rfl⟩)
        · exact Or.inl h
        · exact Or.inr rfl

lemma mem_connectOne (x : Nat) : ∀ (ys : List Nat) (s : Store) (e : Nat × Nat),
    e ∈ (connectOne s x ys).edges ↔
      e ∈ s.edges ∨ ∃ y ∈ ys, x ≠ y ∧ e = canonPair x y := by
  intro ys
  induction ys with
  | nil =>
    intro s e
    simp [connectOne]
  | cons y ys ih =>
    intro s e
    show e ∈ (connectOne (createRelationshipIfAbsent s x y) x ys).edges ↔ _
    rw [ih, mem_createRelationshipIfAbsent]
    constructor
    · rintro ((h | ⟨hne, rfl⟩) | ⟨y', hy', hne', rfl⟩)
      · exact Or.inl h
      · exact Or.inr ⟨y, List.mem_cons_self y ys, hne, rfl⟩
      · exact Or.inr ⟨y', List.mem_cons_of_mem y hy', hne', rfl⟩
    · rintro (h | ⟨y', hy', hne', rfl⟩)
      · exact Or.inl (Or.inl h)
      · rcases List.mem_cons.mp hy' with rfl | hy''
        · exact Or.inl (Or.inr ⟨hne', rfl⟩)
        · exact Or.inr ⟨y', hy'', hne', rfl⟩

lemma mem_connectPairs : ∀ (l : List Nat) (s : Store) (e : Nat × Nat),
    e ∈ (connectPairs s l).edges ↔
      e ∈ s.edges ∨ ∃ x ∈ l, ∃ y ∈ l, x ≠ y ∧ e = canonPair x y := by
  intro l
  induction l with
  | nil =>
    intro s e
    simp [connectPairs]
  | cons x xs ih =>
    intro s e
    show e ∈ (connectPairs (connectOne s x xs) xs).edges ↔ _
    rw [ih, mem_connectOne]
    constructor
    · rintro ((h | ⟨y, hy, hne, rfl⟩) | ⟨x', hx', y', hy', hne', rfl⟩)
      · exact Or.inl h
      · exact Or.inr ⟨x, List.mem_cons_self x xs, y, List.mem_cons_of_mem x hy, hne, rfl⟩
      · exact Or.inr ⟨x', List.mem_cons_of_mem x hx', y',
          List.mem_cons_of_mem x hy', hne', rfl⟩
    · rintro (h | ⟨x', hx', y', hy', hne', rfl⟩)
      · exact Or.inl (Or.inl h)
      · rcases List.mem_cons.mp hx' with rfl | hx'' <;>
          rcases List.mem_cons.mp hy' with rfl | hy''
        · exact absurd rfl hne'
        · exact Or.inl (Or.inr ⟨y', hy'', hne', rfl⟩)
        · refine Or.inl (Or.inr ⟨x', hx'', ?_, canonPair_comm x' y'⟩)
          exact fun hc => hne' hc.symm
        · exact Or.inr ⟨x', hx'', y', hy'', hne', rfl⟩

lemma edgesWF_createRelationshipIfAbsent (s : Store) (a b : Nat)
    (h : edgesWF s) : edgesWF (createRelationshipIfAbsent s a b) := by
  unfold createRelationshipIfAbsent
  split
  · exact h
  · rename_i hab
    split
    · exact h
    · rename_i hmem
      constructor
      · rw [List.nodup_append]
        refine ⟨h.1, List.nodup_singleton _, ?_⟩
        intro p hp hq
        rw [List.mem_singleton] at hq
        rw [hq] at hp
        exact hmem hp
      · intro e he
        rcases List.mem_append.mp he with hl | hr
        · exact h.2 e hl
        · rw [List.mem_singleton.mp hr]
          exact canonPair_fst_lt_snd hab

lemma edgesWF_connectOne (x : Nat) : ∀ (ys : List Nat) (s : Store),
    edgesWF s → edgesWF (connectOne s x ys) := by
  intro ys
  induction ys with
  | nil => intro s h; exact h
  | cons y ys ih =>
    intro s h
    exact ih _ (edgesWF_createRelationshipIfAbsent s x y h)

lemma edgesWF_connectPairs : ∀ (l : List Nat) (s : Store),
    edgesWF s → edgesWF (connectPairs s l) := by
  intro l
  induction l with
  | nil => intro s h; exact h
  | cons x xs ih =>
    intro s h
    exact ih _ (edgesWF_connectOne x xs s h)

lemma mem_allPairs {l : List Nat} (hl : l.Nodup) {p : Nat × Nat} :
    p ∈ allPairs l ↔ p.1 ∈ l ∧ p.2 ∈ l ∧ p.1 < p.2 := by
  induction l with
  | nil => simp [allPairs]
  | cons x xs ih =>
    rcases List.nodup_cons.mp hl with ⟨hx, hxs⟩
    constructor
    · intro hp
      rcases List.mem_append.mp hp with hm | hrec
      · rcases List.mem_map.mp hm with ⟨y, hy, rfl⟩
        have hne : x ≠ y := fun hc => hx (hc ▸ hy)
        have hlt := canonPair_fst_lt_snd hne
        rcases canonPair_cases x y with hcc | hcc <;> rw [hcc] at hlt ⊢
        · exact ⟨List.mem_cons_self x xs, List.mem_cons_of_mem x hy, hlt⟩
        · exact ⟨List.mem_cons_of_mem x hy, List.mem_cons_self x xs, hlt⟩
      · rcases (ih hxs).mp hrec with ⟨h1, h2, h3⟩
        exact ⟨List.mem_cons_of_mem x h1, List.mem_cons_of_mem x h2, h3⟩
    · rintro ⟨h1, h2, h3⟩
      rcases List.mem_cons.mp h1 with he1 | he1
      · have h2' : p.2 ∈ xs := by
          rcases List.mem_cons.mp h2 with he2 | he2
          · omega
          · exact he2
        apply List.mem_append_left
        refine List.mem_map.mpr ⟨p.2, h2', ?_⟩
        rw [canonPair_of_lt (he1 ▸ h3), ← he1]
      · rcases List.mem_cons.mp h2 with he2 | he2
        · have h1' : p.1 ∈ xs := he1
          apply List.mem_append_left
          refine List.mem_map.mpr ⟨p.1, h1', ?_⟩
          rw [canonPair_comm, canonPair_of_lt (he2 ▸ h3), ← he2]
        · exact List.mem_append_right _ ((ih hxs).mpr ⟨he1, he2, h3⟩)

lemma allPairs_nodup : ∀ {l : List Nat}, l.Nodup → (allPairs l).Nodup := by
  intro l
  induction l with
  | nil => intro _; exact List.nodup_nil
  | cons x xs ih =>
    intro hl
    rcases List.nodup_cons.mp hl with ⟨hx, hxs⟩
    rw [allPairs, List.nodup_append]
    refine ⟨?_, ih hxs, ?_⟩
    · refine List.Nodup.map_on ?_ hxs
      intro y hy y' hy' heq
      have hney : x ≠ y := fun hc => hx (hc ▸ hy)
      have hney' : x ≠ y' := fun hc => hx (hc ▸ hy')
      rcases canonPair_cases x y with hc1 | hc1 <;>
        rcases canonPair_cases x y' with hc2 | hc2 <;>
          rw [hc1, hc2] at heq <;>
            simp only [Prod.mk.injEq] at heq
      · exact heq.2
      · exact absurd heq.1 hney'
      · exact absurd heq.1.symm hney
      · exact heq.1
    · intro p hp hq
      rcases List.mem_map.mp hp with ⟨y, hy, rfl⟩
      have hney : x ≠ y := fun hc => hx (hc ▸ hy)
      rcases (mem_allPairs hxs).mp hq with ⟨h1, h2, _⟩
      rcases canonPair_cases x y with hc | hc <;> rw [hc] at h1 h2
      · exact hx h1
      · exact hx h2

lemma allPairs_length : ∀ (l : List Nat),
    2 * (allPairs l).length = l.length * (l.length - 1) := by
  intro l
  induction l with
  | nil => rfl
  | cons x xs ih =>
    simp only [allPairs, List.length_append, List.length_map, List.length_cons]
    cases hn : xs.length with
    | zero =>
      rw [hn] at ih
      omega
    | succ m =>
      rw [hn] at ih
      have ha : (m + 1) * (m + 1 - 1) = m * m + m := by
        simp only [Nat.add_sub_cancel]
        ring
      have hb : (m + 1 + 1) * (m + 1 + 1 - 1) = m * m + 3 * m + 2 := by
        simp only [Nat.add_sub_cancel]
        ring
      rw [ha] at ih
      rw [hb]
      linarith

/-- C1: for every valid batch, the resolved distinct uids `R` (with
`N = R.length`) end up pairwise connected, no self-pair is ever stored,
every edge this call adds joins two resolved uids, and exactly
`N * (N - 1) / 2` relationships exist among the resolved uids
afterwards. -/
theorem construct_full_connectivity (s : Store) (batch : List RawEntity)
    (nes : List NormalizedEntity) (s' : Store) (r : ConstructResult)
    (hwf : edgesWF s)
    (hna : normalizeAll batch = .ok nes)
    (h : construct s batch = .ok (s', r)) :
    (∀ a ∈ resolvedUids (resolveAll s nes).2, ∀ b ∈ resolvedUids (resolveAll s nes).2,
      a ≠ b → canonPair a b ∈ s'.edges) ∧
    (∀ e ∈ s'.edges, e.1 ≠ e.2) ∧
    (∀ e ∈ s'.edges, e ∉ s.edges →
      e.1 ∈ resolvedUids (resolveAll s nes).2 ∧ e.2 ∈ resolvedUids (resolveAll s nes).2) ∧
    (s'.edges.filter fun e =>
        decide (e.1 ∈ resolvedUids (resolveAll s nes).2) &&
        decide (e.2 ∈ resolvedUids (resolveAll s nes).2)).length
      = (resolvedUids (resolveAll s nes).2).length *
        ((resolvedUids (resolveAll s nes).2).length - 1) / 2 := by
  unfold construct at h
  rw [hna] at h
  injection h with h1
  rw [Prod.mk.injEq] at h1
  obtain ⟨hs, _⟩ := h1
  subst hs
  set R := resolvedUids (resolveAll s nes).2 with hR
  have hRnd : R.Nodup := List.nodup_dedup _
  have hedges2 : (resolveAll s nes).1.edges = s.edges := resolveAll_edges nes s
  have hwf2 : edgesWF (resolveAll s nes).1 := by
    unfold edgesWF
    rw [hedges2]
    exact hwf
  have hwf' : edgesWF (connectPairs (resolveAll s nes).1 R) :=
    edgesWF_connectPairs R _ hwf2
  have hmemE : ∀ e, e ∈ (connectPairs (resolveAll s nes).1 R).edges ↔
      e ∈ s.edges ∨ ∃ x ∈ R, ∃ y ∈ R, x ≠ y ∧ e = canonPair x y := by
    intro e
    rw [mem_connectPairs R _ e, hedges2]
  refine ⟨?_, ?_, ?_, ?_⟩
  · intro a ha b hb hab
    exact (hmemE _).mpr (Or.inr ⟨a, ha, b, hb, hab, rfl⟩)
  · intro e he
    exact Nat.ne_of_lt (hwf'.2 e he)
  · intro e he hnotold
    rcases (hmemE e).mp he with hold | ⟨x, hx, y, hy, hne, rfl⟩
    · exact absurd hold hnotold
    · rcases canonPair_cases x y with hc | hc <;> rw [hc]
      · exact ⟨hx, hy⟩
      · exact ⟨hy, hx⟩
  · have hmemF : ∀ e, e ∈ ((connectPairs (resolveAll s nes).1 R).edges.filter fun e =>
        decide (e.1 ∈ R) && decide (e.2 ∈ R)) ↔ e ∈ allPairs R := by
      intro e
      rw [List.mem_filter, Bool.and_eq_true, decide_eq_true_eq, decide_eq_true_eq,
        mem_allPairs hRnd, hmemE]
      constructor
      · rintro ⟨hold | ⟨x, _, y, _, hne, rfl⟩, h1, h2⟩
        · exact ⟨h1, h2, hwf.2 e hold⟩
        · exact ⟨h1, h2, canonPair_fst_lt_snd hne⟩
      · rintro ⟨h1, h2, h3⟩
        refine ⟨Or.inr ⟨e.1, h1, e.2, h2, Nat.ne_of_lt h3, ?_⟩, h1, h2⟩
        rw [canonPair_of_lt h3]
    have hndF : ((connectPairs (resolveAll s nes).1 R).edges.filter fun e =>
        decide (e.1 ∈ R) && decide (e.2 ∈ R)).Nodup :=
      List.Nodup.filter _ hwf'.1
    have hperm : List.Perm ((connectPairs (resolveAll s nes).1 R).edges.filter fun e =>
        decide (e.1 ∈ R) && decide (e.2 ∈ R)) (allPairs R) :=
      (List.perm_ext_iff_of_nodup hndF (allPairs_nodup hRnd)).mpr hmemF
    have hlen := hperm.length_eq
    have h2l := allPairs_length R
    omega

/-- The three-entity demonstration batch. -/
def demoBatch : List RawEntity :=
  [⟨"Dubai", "GPE", AttrBag.none⟩,
   ⟨"Ford", "ORG", ⟨some ["Company"], Option.none, Option.none, Option.none⟩⟩,
   ⟨"Chris Ballinger", "PERSON", AttrBag.none⟩]

/-- The normalizer's output on the demonstration batch. -/
def demoNes : List NormalizedEntity :=
  [⟨"Dubai", "GPE", AttrBag.none, ("dubai", "gpe")⟩,
   ⟨"Ford", "ORG", ⟨some ["Company"], Option.none, Option.none, Option.none⟩,
     ("ford", "org")⟩,
   ⟨"Chris Ballinger", "PERSON", AttrBag.none, ("chris ballinger", "person")⟩]

/-- The store produced by constructing the demonstration batch on the
empty store. -/
def demoStore3 : Store :=
  ⟨[⟨0, "Dubai", "GPE", AttrBag.none⟩,
    ⟨1, "Ford", "ORG", ⟨some ["Company"], Option.none, Option.none, Option.none⟩⟩,
    ⟨2, "Chris Ballinger", "PERSON", AttrBag.none⟩],
   [(0, 1), (0, 2), (1, 2)], 3⟩

/-- Witness for C1: three distinct entities on the empty store yield three
resolved uids, all pairwise connected, and 3 * 2 / 2 = 3 relationships
among them. -/
theorem construct_full_connectivity_witness :
    (∀ a ∈ resolvedUids (resolveAll emptyStore demoNes).2,
      ∀ b ∈ resolvedUids (resolveAll emptyStore demoNes).2,
      a ≠ b → canonPair a b ∈ demoStore3.edges) ∧
    (∀ e ∈ demoStore3.edges, e.1 ≠ e.2) ∧
    (∀ e ∈ demoStore3.edges, e ∉ emptyStore.edges →
      e.1 ∈ resolvedUids (resolveAll emptyStore demoNes).2 ∧
      e.2 ∈ resolvedUids (resolveAll emptyStore demoNes).2) ∧
    (demoStore3.edges.filter fun e =>
        decide (e.1 ∈ resolvedUids (resolveAll emptyStore demoNes).2) &&
        decide (e.2 ∈ resolvedUids (resolveAll emptyStore demoNes).2)).length
      = (resolvedUids (resolveAll emptyStore demoNes).2).length *
        ((resolvedUids (resolveAll emptyStore demoNes).2).length - 1) / 2 :=
  construct_full_connectivity emptyStore demoBatch demoNes demoStore3
    ⟨[0, 1, 2], [], [(0, 1), (0, 2), (1, 2)]⟩
    (by constructor
        · exact List.nodup_nil
        · intro e he; cases he)
    (by decide) (by decide)

/-! ## Dedup-key machinery (C3), shared with idempotence (C2) -/

/-- The dedup-key uniqueness invariant: no two stored nodes share a dedup
key. -/
def KeyInv (s : Store) : Prop := (s.nodes.map Node.dedupKey).Nodup

/-- Coherence of a normalized entity: its stored dedup key is the folded
(name, category), as the normalizer computes it. -/
def NEcoherent (ne : NormalizedEntity) : Prop :=
  ne.dedupKey = (foldKey ne.name, foldKey ne.category)

lemma normalize_coherent {e : RawEntity} {ne : NormalizedEntity}
    (h : normalize e = .ok ne) : NEcoherent ne := by
  unfold normalize at h
  split at h
  · exact Except.noConfusion h
  · split at h
    · exact Except.noConfusion h
    · injection h with h1
      rw [← h1]
      rfl

lemma normalizeAll_coherent : ∀ {batch : List RawEntity} {nes : List NormalizedEntity},
    normalizeAll batch = .ok nes → ∀ ne ∈ nes, NEcoherent ne := by
  intro batch
  induction batch with
  | nil =>
    intro nes h ne hne
    unfold normalizeAll at h
    injection h with h1
    rw [← h1] at hne
    cases hne
  | cons e es ih =>
    intro nes h ne hne
    unfold normalizeAll at h
    cases he : normalize e with
    | error err =>
      rw [he] at h
      exact Except.noConfusion h
    | ok ne0 =>
      rw [he] at h
      cases hr : normalizeAll es with
      | error err =>
        rw [hr] at h
        exact Except.noConfusion h
      | ok nes0 =>
        rw [hr] at h
        injection h with h1
        rw [← h1] at hne
        rcases List.mem_cons.mp hne with rfl | htail
        · exact normalize_coherent he
        · exact ih hr ne htail

lemma normalizeAll_mem : ∀ {batch : List RawEntity} {nes : List NormalizedEntity}
    {e : RawEntity}, normalizeAll batch = .ok nes → e ∈ batch →
    ∃ ne ∈ nes, normalize e = .ok ne := by
  intro batch
  induction batch with
  | nil => intro nes e h hmem; cases hmem
  | cons x xs ih =>
    intro nes e h hmem
    unfold normalizeAll at h
    cases hx : normalize x with
    | error err =>
      rw [hx] at h
      exact Except.noConfusion h
    | ok nx =>
      rw [hx] at h
      cases hr : normalizeAll xs with
      | error err =>
        rw [hr] at h
        exact Except.noConfusion h
      | ok nxs =>
        rw [hr] at h
        injection h with h1
        rcases List.mem_cons.mp hmem with rfl | htail
        · exact ⟨nx, by rw [← h1]; exact List.mem_cons_self _ _, hx⟩
        · rcases ih hr htail with ⟨ne, hne, hok⟩
          exact ⟨ne, by rw [← h1]; exact List.mem_cons_of_mem _ hne, hok⟩

lemma find?_append_of_some {α : Type} {p : α → Bool} {l₁ : List α} {a : α}
    (l₂ : List α) (h : l₁.find? p = some a) : (l₁ ++ l₂).find? p = some a := by
  induction l₁ with
  | nil => simp [List.find?] at h
  | cons x l ih =>
    rw [List.cons_append]
    cases hp : p x with
    | true =>
      rw [List.find?] at h ⊢
      rw [hp] at h ⊢
      exact h
    | false =>
      rw [List.find?] at h ⊢
      rw [hp] at h ⊢
      exact ih h

lemma find?_append_of_none {α : Type} {p : α → Bool} {l₁ : List α}
    (l₂ : List α) (h : l₁.find? p = Option.none) :
    (l₁ ++ l₂).find? p = l₂.find? p := by
  induction l₁ with
  | nil => rfl
  | cons x l ih =>
    rw [List.cons_append]
    cases hp : p x with
    | true =>
      rw [List.find?] at h
      rw [hp] at h
      exact Option.noConfusion h
    | false =>
      rw [List.find?] at h ⊢
      rw [hp] at h ⊢
      exact ih h

lemma mergeAttributes_keys (s : Store) (uid : Nat) (inc : AttrBag) :
    (mergeAttributes s uid inc).nodes.map Node.dedupKey = s.nodes.map Node.dedupKey := by
  unfold mergeAttributes
  rw [List.map_map]
  apply List.map_congr_left
  intro n _
  by_cases hc : n.uid = uid
  · simp [hc, Node.dedupKey]
  · simp [hc]

lemma resolveUid_mergeAttributes (s : Store) (uid : Nat) (inc : AttrBag)
    (k : String × String) : resolveUid (mergeAttributes s uid inc) k = resolveUid s k := by
  unfold resolveUid findByDedupKey mergeAttributes
  induction s.nodes with
  | nil => rfl
  | cons n l ih =>
    by_cases hk : n.dedupKey = k
    · have hk' : Node.dedupKey
          (if n.uid = uid then { n with attrs := mergeBag inc n.attrs } else n) = k := by
        by_cases hc : n.uid = uid <;> simp [hc, Node.dedupKey] <;>
          simpa [Node.dedupKey] using hk
      simp only [List.map_cons, List.find?, hk, hk']
      by_cases hc : n.uid = uid <;> simp [hc]
    · have hk' : ¬ Node.dedupKey
          (if n.uid = uid then { n with attrs := mergeBag inc n.attrs } else n) = k := by
        by_cases hc : n.uid = uid <;> simp [hc, Node.dedupKey] <;>
          simpa [Node.dedupKey] using hk
      simpa [List.find?, hk, hk'] using ih

lemma resolveUid_resolveEntity_mono {s : Store} {k : String × String} {u : Nat}
    (ne : NormalizedEntity) (h : resolveUid s k = some u) :
    resolveUid (resolveEntity s ne).1 k = some u := by
  unfold resolveEntity
  cases hf : findByDedupKey s ne.dedupKey with
  | some n =>
    rw [resolveUid_mergeAttributes]
    exact h
  | none =>
    show resolveUid (createNode s ne).1 k = some u
    unfold resolveUid findByDedupKey at h
    cases hfk : s.nodes.find? (fun n => decide (n.dedupKey = k)) with
    | none =>
      rw [hfk] at h
      exact Option.noConfusion h
    | some n0 =>
      rw [hfk] at h
      show Option.map Node.uid
        ((s.nodes ++ [(⟨s.nextUid, ne.name, ne.category, ne.attrs⟩ : Node)]).find? fun n =>
          decide (n.dedupKey = k)) = some u
      rw [find?_append_of_some _ hfk]
      exact h

lemma resolveUid_resolveAll_mono : ∀ (nes : List NormalizedEntity) (s : Store)
    {k : String × String} {u : Nat}, resolveUid s k = some u →
    resolveUid (resolveAll s nes).1 k = some u := by
  intro nes
  induction nes with
  | nil => intro s k u h; exact h
  | cons ne nes ih =>
    intro s k u h
    exact ih _ (resolveUid_resolveEntity_mono ne h)

lemma resolveEntity_establishes (s : Store) (ne : NormalizedEntity)
    (hco : NEcoherent ne) :
    resolveUid (resolveEntity s ne).1 ne.dedupKey = some (resolveEntity s ne).2.1 := by
  unfold resolveEntity
  cases hf : findByDedupKey s ne.dedupKey with
  | some n =>
    rw [resolveUid_mergeAttributes]
    unfold resolveUid
    rw [hf]
    rfl
  | none =>
    unfold resolveUid findByDedupKey createNode
    simp only
    unfold findByDedupKey at hf
    rw [find?_append_of_none _ hf]
    have hkey : Node.dedupKey ⟨s.nextUid, ne.name, ne.category, ne.attrs⟩ = ne.dedupKey := by
      rw [hco]
      rfl
    simp [List.find?, hkey]

lemma resolveAll_establishes : ∀ (nes : List NormalizedEntity) (s : Store),
    (∀ ne ∈ nes, NEcoherent ne) →
    List.Forall₂ (fun ne (t : Nat × Bool) =>
      resolveUid (resolveAll s nes).1 ne.dedupKey = some t.1) nes (resolveAll s nes).2 := by
  intro nes
  induction nes with
  | nil => intro s _; exact List.Forall₂.nil
  | cons ne nes ih =>
    intro s hco
    show List.Forall₂ _ (ne :: nes)
      ((resolveEntity s ne).2 :: (resolveAll (resolveEntity s ne).1 nes).2)
    constructor
    · show resolveUid (resolveAll (resolveEntity s ne).1 nes).1 ne.dedupKey
        = some (resolveEntity s ne).2.1
      exact resolveUid_resolveAll_mono nes _
        (resolveEntity_establishes s ne (hco ne (List.mem_cons_self _ _)))
    · have := ih (resolveEntity s ne).1
        (fun x hx => hco x (List.mem_cons_of_mem _ hx))
      exact List.Forall₂.imp (fun a b hab => hab) this

lemma findByDedupKey_nodes_eq {s t : Store} (h : s.nodes = t.nodes)
    (k : String × String) : findByDedupKey s k = findByDedupKey t k := by
  unfold findByDedupKey
  rw [h]

lemma KeyInv_resolveEntity {s : Store} (ne : NormalizedEntity)
    (hco : NEcoherent ne) (h : KeyInv s) : KeyInv (resolveEntity s ne).1 := by
  unfold resolveEntity
  cases hf : findByDedupKey s ne.dedupKey with
  | some n =>
    unfold KeyInv
    rw [mergeAttributes_keys]
    exact h
  | none =>
    unfold KeyInv createNode
    simp only [List.map_append, List.map_singleton]
    rw [List.nodup_append]
    refine ⟨h, List.nodup_singleton _, ?_⟩
    intro k hk hk1
    rw [List.mem_singleton] at hk1
    unfold findByDedupKey at hf
    have hall := List.find?_eq_none.mp hf
    rcases List.mem_map.mp hk with ⟨n, hn, rfl⟩
    have := hall n hn
    rw [decide_eq_true_eq] at this
    apply this
    rw [hk1, hco]
    rfl

lemma KeyInv_resolveAll : ∀ (nes : List NormalizedEntity) (s : Store),
    (∀ ne ∈ nes, NEcoherent ne) → KeyInv s → KeyInv (resolveAll s nes).1 := by
  intro nes
  induction nes with
  | nil => intro s _ h; exact h
  | cons ne nes ih =>
    intro s hco h
    exact ih _ (fun x hx => hco x (List.mem_cons_of_mem _ hx))
      (KeyInv_resolveEntity ne (hco ne (List.mem_cons_self _ _)) h)

lemma KeyInv_construct {s : Store} {batch : List RawEntity} {s' : Store}
    {r : ConstructResult} (h : KeyInv s) (hc : construct s batch = .ok (s', r)) :
    KeyInv s' := by
  unfold construct at hc
  cases hna : normalizeAll batch with
  | error err =>
    rw [hna] at hc
    exact Except.noConfusion hc
  | ok nes =>
    rw [hna] at hc
    injection hc with h1
    rw [Prod.mk.injEq] at h1
    obtain ⟨hs, _⟩ := h1
    rw [← hs]
    unfold KeyInv
    rw [connectPairs_nodes]
    exact KeyInv_resolveAll nes s (normalizeAll_coherent hna) h

lemma filter_key_count_le_one {l : List Node} (h : (l.map Node.dedupKey).Nodup)
    (k : String × String) :
    (l.filter fun n => decide (n.dedupKey = k)).length ≤ 1 := by
  induction l with
  | nil => exact Nat.le_of_lt Nat.one_pos
  | cons x xs ih =>
    rw [List.map_cons, List.nodup_cons] at h
    by_cases hx : x.dedupKey = k
    · have hrest : (xs.filter fun n => decide (n.dedupKey = k)) = [] := by
        rw [List.filter_eq_nil_iff]
        intro y hy hc
        rw [decide_eq_true_eq] at hc
        exact h.1 (List.mem_map.mpr ⟨y, hy, by rw [hc, hx]⟩)
      rw [List.filter_cons_of_pos (by simpa using hx), hrest]
      exact Nat.le_refl _
    · rw [List.filter_cons_of_neg (by simpa using hx)]
      exact ih h.2

/-- C3: dedup-key uniqueness is an invariant preserved by construction,
update and deletion; and the same entity submitted in two separate batches
yields exactly one node with its dedup key in the final store. -/
theorem dedup_key_invariant :
    (∀ (s : Store) (batch : List RawEntity) (s' : Store) (r : ConstructResult),
      KeyInv s → construct s batch = .ok (s', r) → KeyInv s') ∧
    (∀ (s : Store) (uid : Nat) (inc : AttrBag) (s2 : Store),
      KeyInv s → update_node s uid inc = .ok s2 → KeyInv s2) ∧
    (∀ (s : Store) (uid : Nat), KeyInv s → KeyInv (delete_node s uid).1) ∧
    (∀ (s : Store) (e : RawEntity) (ne : NormalizedEntity)
      (b1 b2 : List RawEntity) (s1 : Store) (r1 : ConstructResult)
      (s2 : Store) (r2 : ConstructResult),
      KeyInv s → normalize e = .ok ne → e ∈ b1 → e ∈ b2 →
      construct s b1 = .ok (s1, r1) → construct s1 b2 = .ok (s2, r2) →
      (s2.nodes.filter fun n => decide (n.dedupKey = ne.dedupKey)).length = 1) := by
  refine ⟨fun s batch s' r h hc => KeyInv_construct h hc, ?_, ?_, ?_⟩
  · intro s uid inc s2 h hu
    unfold update_node at hu
    cases hg : getNode s uid with
    | none =>
      rw [hg] at hu
      exact Except.noConfusion hu
    | some n =>
      rw [hg] at hu
      injection hu with h1
      rw [← h1]
      unfold KeyInv
      rw [mergeAttributes_keys]
      exact h
  · intro s uid h
    unfold delete_node
    split
    · unfold KeyInv
      simp only
      exact List.Nodup.sublist (List.Sublist.map _ (List.filter_sublist _)) h
    · exact h
  · intro s e ne b1 b2 s1 r1 s2 r2 hinv hnorm he1 he2 hc1 hc2
    have hinv2 : KeyInv s2 := KeyInv_construct (KeyInv_construct hinv hc1) hc2
    -- the entity's key is present in s2
    have hpres : ∃ n ∈ s2.nodes, n.dedupKey = ne.dedupKey := by
      unfold construct at hc2
      cases hna : normalizeAll b2 with
      | error err =>
        rw [hna] at hc2
        exact Except.noConfusion hc2
      | ok nes =>
        rw [hna] at hc2
        injection hc2 with h1
        rw [Prod.mk.injEq] at h1
        obtain ⟨hs, _⟩ := h1
        rcases normalizeAll_mem hna he2 with ⟨ne', hne', hok⟩
        have hne : ne' = ne := by
          rw [hnorm] at hok
          injection hok with h2
          exact h2.symm ▸ rfl
        subst hne
        have hfa := resolveAll_establishes nes s1 (normalizeAll_coherent hna)
        have hsome : ∃ u, resolveUid (resolveAll s1 nes).1 ne'.dedupKey = some u := by
          rcases List.forall₂_iff_get.mp hfa with ⟨hlen, hget⟩
          rcases List.get_of_mem hne' with ⟨i, hi⟩
          refine ⟨((resolveAll s1 nes).2.get ⟨i.1, by omega⟩).1, ?_⟩
          have := hget i.1 i.2 (by omega)
          rw [hi] at this
          exact this
        rcases hsome with ⟨u, hu⟩
        unfold resolveUid at hu
        cases hfind : findByDedupKey (resolveAll s1 nes).1 ne'.dedupKey with
        | none =>
          rw [hfind] at hu
          exact Option.noConfusion hu
        | some n =>
          have hmemn : n ∈ (resolveAll s1 nes).1.nodes := List.mem_of_find?_eq_some hfind
          have hkeyn : n.dedupKey = ne'.dedupKey := by
            have := List.find?_some hfind
            rwa [decide_eq_true_eq] at this
          refine ⟨n, ?_, hkeyn⟩
          rw [← hs]
          rw [connectPairs_nodes]
          exact hmemn
    rcases hpres with ⟨n, hn, hk⟩
    have hge1 : 1 ≤ (s2.nodes.filter fun n => decide (n.dedupKey = ne.dedupKey)).length := by
      have hmemf : n ∈ s2.nodes.filter fun n => decide (n.dedupKey = ne.dedupKey) :=
        List.mem_filter.mpr ⟨hn, by simpa using hk⟩
      have := List.length_pos.mpr (List.ne_nil_of_mem hmemf)
      omega
    have hle1 := filter_key_count_le_one hinv2 ne.dedupKey
    omega

/-- Witness for C3: `("Dubai","GPE")` submitted in batch 1 and again in
batch 2 produces exactly one node with its dedup key across both
batches. -/
theorem dedup_key_invariant_witness :
    ((⟨[⟨0, "Dubai", "GPE", AttrBag.none⟩], [], 1⟩ : Store).nodes.filter fun n =>
      decide (n.dedupKey = ("dubai", "gpe"))).length = 1 :=
  dedup_key_invariant.2.2.2 emptyStore ⟨"Dubai", "GPE", AttrBag.none⟩
    ⟨"Dubai", "GPE", AttrBag.none, ("dubai", "gpe")⟩
    [⟨"Dubai", "GPE", AttrBag.none⟩] [⟨"Dubai", "GPE", AttrBag.none⟩]
    ⟨[⟨0, "Dubai", "GPE", AttrBag.none⟩], [], 1⟩ ⟨[0], [], []⟩
    ⟨[⟨0, "Dubai", "GPE", AttrBag.none⟩], [], 1⟩ ⟨[], [0], []⟩
    (by exact List.Pairwise.nil) (by decide) (by decide) (by decide) (by decide) (by decide)

/-! ## Idempotence machinery (C2): merge-fold algebra -/

lemma attrBag_eq_of_fields : ∀ {b1 b2 : AttrBag}, b1.entityType = b2.entityType →
    b1.wiki_classes = b2.wiki_classes → b1.url = b2.url →
    b1.dbPediaIri = b2.dbPediaIri → b1 = b2 := by
  intro b1 b2 h1 h2 h3 h4
  cases b1
  cases b2
  simp only at h1 h2 h3 h4
  rw [h1, h2, h3, h4]

lemma node_eq_of_fields : ∀ {n1 n2 : Node}, n1.uid = n2.uid → n1.name = n2.name →
    n1.category = n2.category → n1.attrs = n2.attrs → n1 = n2 := by
  intro n1 n2 h1 h2 h3 h4
  cases n1
  cases n2
  simp only at h1 h2 h3 h4
  rw [h1, h2, h3, h4]

lemma store_eq_of_fields : ∀ {s t : Store}, s.nodes = t.nodes → s.edges = t.edges →
    s.nextUid = t.nextUid → s = t := by
  intro s t h1 h2 h3
  cases s
  cases t
  simp only at h1 h2 h3
  rw [h1, h2, h3]

lemma mergeField_none_right {α : Type} (a : Option α) :
    mergeField a Option.none = a := by
  cases a <;> rfl

lemma mergeBag_none_right (b : AttrBag) : mergeBag b AttrBag.none = b :=
  attrBag_eq_of_fields (mergeField_none_right _) (mergeField_none_right _)
    (mergeField_none_right _) (mergeField_none_right _)

/-- Left fold of the fieldwise merge policy over a list of incoming
fields. -/
def foldMergeField {α : Type} (as : List (Option α)) (v : Option α) : Option α :=
  as.foldl (fun acc a => mergeField a acc) v

/-- Left fold of the bag merge policy over a list of incoming bags. -/
def foldMergeBag (bs : List AttrBag) (v : AttrBag) : AttrBag :=
  bs.foldl (fun acc b => mergeBag b acc) v

lemma foldMergeField_absorb {α : Type} : ∀ (as : List (Option α)) (v : Option α),
    foldMergeField as v = mergeField (foldMergeField as Option.none) v := by
  intro as
  induction as with
  | nil => intro v; rfl
  | cons a as ih =>
    intro v
    show foldMergeField as (mergeField a v)
      = mergeField (foldMergeField as (mergeField a Option.none)) v
    rw [mergeField_none_right]
    rw [ih (mergeField a v), ih a]
    cases foldMergeField as Option.none with
    | none => rfl
    | some w => rfl

lemma foldMergeField_idem {α : Type} (as : List (Option α)) (v : Option α) :
    foldMergeField as (foldMergeField as v) = foldMergeField as v := by
  rw [foldMergeField_absorb as (foldMergeField as v), foldMergeField_absorb as v]
  cases foldMergeField as Option.none with
  | none => rfl
  | some w => rfl

lemma foldMergeBag_entityType : ∀ (bs : List AttrBag) (v : AttrBag),
    (foldMergeBag bs v).entityType = foldMergeField (bs.map AttrBag.entityType) v.entityType := by
  intro bs
  induction bs with
  | nil => intro v; rfl
  | cons b bs ih =>
    intro v
    show (foldMergeBag bs (mergeBag b v)).entityType = _
    rw [ih]
    rfl

lemma foldMergeBag_wiki : ∀ (bs : List AttrBag) (v : AttrBag),
    (foldMergeBag bs v).wiki_classes
      = foldMergeField (bs.map AttrBag.wiki_classes) v.wiki_classes := by
  intro bs
  induction bs with
  | nil => intro v; rfl
  | cons b bs ih =>
    intro v
    show (foldMergeBag bs (mergeBag b v)).wiki_classes = _
    rw [ih]
    rfl

lemma foldMergeBag_url : ∀ (bs : List AttrBag) (v : AttrBag),
    (foldMergeBag bs v).url = foldMergeField (bs.map AttrBag.url) v.url := by
  intro bs
  induction bs with
  | nil => intro v; rfl
  | cons b bs ih =>
    intro v
    show (foldMergeBag bs (mergeBag b v)).url = _
    rw [ih]
    rfl

lemma foldMergeBag_iri : ∀ (bs : List AttrBag) (v : AttrBag),
    (foldMergeBag bs v).dbPediaIri
      = foldMergeField (bs.map AttrBag.dbPediaIri) v.dbPediaIri := by
  intro bs
  induction bs with
  | nil => intro v; rfl
  | cons b bs ih =>
    intro v
    show (foldMergeBag bs (mergeBag b v)).dbPediaIri = _
    rw [ih]
    rfl

lemma foldMergeBag_idem (bs : List AttrBag) (v : AttrBag) :
    foldMergeBag bs (foldMergeBag bs v) = foldMergeBag bs v := by
  refine attrBag_eq_of_fields ?_ ?_ ?_ ?_
  · rw [foldMergeBag_entityType, foldMergeBag_entityType]
    exact foldMergeField_idem _ _
  · rw [foldMergeBag_wiki, foldMergeBag_wiki]
    exact foldMergeField_idem _ _
  · rw [foldMergeBag_url, foldMergeBag_url]
    exact foldMergeField_idem _ _
  · rw [foldMergeBag_iri, foldMergeBag_iri]
    exact foldMergeField_idem _ _

/-! ## Idempotence machinery (C2): store evolution of attributes -/

lemma getNode_uid {s : Store} {u : Nat} {n : Node} (h : getNode s u = some n) :
    n.uid = u := by
  unfold getNode at h
  have := List.find?_some h
  rwa [decide_eq_true_eq] at this

lemma getNode_mem {s : Store} {u : Nat} {n : Node} (h : getNode s u = some n) :
    n ∈ s.nodes := by
  unfold getNode at h
  exact List.mem_of_find?_eq_some h

lemma getNode_mergeAttributes_general (s : Store) (uid : Nat) (inc : AttrBag) (u : Nat) :
    getNode (mergeAttributes s uid inc) u =
      (getNode s u).map fun n =>
        if n.uid = uid then { n with attrs := mergeBag inc n.attrs } else n := by
  unfold getNode mergeAttributes
  induction s.nodes with
  | nil => rfl
  | cons n l ih =>
    have huid : ∀ m : Node,
        (if m.uid = uid then { m with attrs := mergeBag inc m.attrs } else m).uid
          = m.uid := by
      intro m
      by_cases hc : m.uid = uid <;> simp [hc]
    simp only [List.map_cons, List.find?, huid]
    cases hd : decide (n.uid = u) with
    | true => rfl
    | false => exact ih

lemma mergeAttributes_uids (s : Store) (uid : Nat) (inc : AttrBag) :
    (mergeAttributes s uid inc).nodes.map Node.uid = s.nodes.map Node.uid := by
  unfold mergeAttributes
  rw [List.map_map]
  apply List.map_congr_left
  intro n _
  by_cases hc : n.uid = uid <;> simp [hc]

lemma attrsAt_resolveEntity (s : Store) (ne : NormalizedEntity) (u : Nat)
    (hb : uidsBounded s) :
    attrsAt (resolveEntity s ne).1 u =
      if (resolveEntity s ne).2.1 = u then mergeBag ne.attrs (attrsAt s u)
      else attrsAt s u := by
  unfold resolveEntity
  cases hf : findByDedupKey s ne.dedupKey with
  | some n =>
    simp only
    unfold attrsAt
    rw [getNode_mergeAttributes_general]
    cases hg : getNode s u with
    | none =>
      have hnm : n ∈ s.nodes := by
        unfold findByDedupKey at hf
        exact List.mem_of_find?_eq_some hf
      have hne : ¬ n.uid = u := by
        unfold getNode at hg
        have hall := List.find?_eq_none.mp hg
        have := hall n hnm
        rwa [decide_eq_true_eq] at this
      rw [if_neg hne]
      rfl
    | some m =>
      have hmu : m.uid = u := getNode_uid hg
      by_cases hc : n.uid = u
      · rw [if_pos hc]
        show (if m.uid = n.uid then { m with attrs := mergeBag ne.attrs m.attrs }
          else m).attrs = mergeBag ne.attrs m.attrs
        rw [if_pos (by rw [hmu, hc])]
      · rw [if_neg hc]
        show (if m.uid = n.uid then { m with attrs := mergeBag ne.attrs m.attrs }
          else m).attrs = m.attrs
        rw [if_neg (fun hcc => hc (by rw [← hcc, hmu]))]
  | none =>
    simp only
    by_cases hc : s.nextUid = u
    · subst hc
      have hnone : getNode s s.nextUid = Option.none := by
        unfold getNode
        apply List.find?_eq_none.mpr
        intro n hn
        simp only [decide_eq_true_eq]
        exact Nat.ne_of_lt (hb n hn)
      have hfn : s.nodes.find? (fun n => decide (n.uid = s.nextUid)) = Option.none := by
        unfold getNode at hnone
        exact hnone
      have hnew : getNode (createNode s ne).1 s.nextUid
          = some ⟨s.nextUid, ne.name, ne.category, ne.attrs⟩ := by
        unfold getNode
        show (s.nodes ++ [(⟨s.nextUid, ne.name, ne.category, ne.attrs⟩ : Node)]).find?
          (fun n => decide (n.uid = s.nextUid)) = _
        rw [find?_append_of_none _ hfn]
        simp [List.find?]
      unfold attrsAt
      rw [hnew, hnone,
        if_pos (show (createNode s ne).2.uid = s.nextUid from rfl)]
      show ne.attrs = mergeBag ne.attrs AttrBag.none
      rw [mergeBag_none_right]
    · rw [if_neg (show ¬((createNode s ne).2.uid = u) from hc)]
      unfold attrsAt
      have hsame : getNode (createNode s ne).1 u = getNode s u := by
        unfold getNode
        show (s.nodes ++ [(⟨s.nextUid, ne.name, ne.category, ne.attrs⟩ : Node)]).find?
          (fun n => decide (n.uid = u)) = s.nodes.find? (fun n => decide (n.uid = u))
        cases hfk : s.nodes.find? (fun n => decide (n.uid = u)) with
        | some m => exact find?_append_of_some _ hfk
        | none =>
          rw [find?_append_of_none _ hfk]
          simp [List.find?, hc]
      rw [hsame]

lemma uidsBounded_resolveAll : ∀ (nes : List NormalizedEntity) (s : Store),
    uidsBounded s → uidsBounded (resolveAll s nes).1 := by
  intro nes
  induction nes with
  | nil => intro s h; exact h
  | cons ne nes ih =>
    intro s h
    exact ih _ (uidsBounded_resolveEntity s ne h)

lemma uidsBounded_connectPairs (l : List Nat) (s : Store)
    (h : uidsBounded s) : uidsBounded (connectPairs s l) := by
  intro n hn
  rw [connectPairs_nodes] at hn
  rw [connectPairs_nextUid]
  exact h n hn

lemma uidNodup_resolveEntity (s : Store) (ne : NormalizedEntity)
    (hb : uidsBounded s) (hn : (s.nodes.map Node.uid).Nodup) :
    ((resolveEntity s ne).1.nodes.map Node.uid).Nodup := by
  unfold resolveEntity
  cases hf : findByDedupKey s ne.dedupKey with
  | some n =>
    rw [mergeAttributes_uids]
    exact hn
  | none =>
    show ((s.nodes ++ [(⟨s.nextUid, ne.name, ne.category, ne.attrs⟩ : Node)]).map
      Node.uid).Nodup
    rw [List.map_append, List.map_singleton, List.nodup_append]
    refine ⟨hn, List.nodup_singleton _, ?_⟩
    intro u hu hu1
    rw [List.mem_singleton] at hu1
    rcases List.mem_map.mp hu with ⟨m, hm, rfl⟩
    exact absurd (hu1 ▸ hb m hm) (Nat.lt_irrefl _)

lemma uidNodup_resolveAll : ∀ (nes : List NormalizedEntity) (s : Store),
    uidsBounded s → (s.nodes.map Node.uid).Nodup →
    ((resolveAll s nes).1.nodes.map Node.uid).Nodup := by
  intro nes
  induction nes with
  | nil => intro s _ hn; exact hn
  | cons ne nes ih =>
    intro s hb hn
    exact ih _ (uidsBounded_resolveEntity s ne hb) (uidNodup_resolveEntity s ne hb hn)

/-- The attribute bags that the entity sequence merges into uid `u` when
resolved from store `s`, in processing order. -/
def bagsFor : Store → Nat → List NormalizedEntity → List AttrBag
  | _, _, [] => []
  | s, u, ne :: nes =>
    (if (resolveEntity s ne).2.1 = u then [ne.attrs] else []) ++
      bagsFor (resolveEntity s ne).1 u nes

lemma attrsAt_resolveAll : ∀ (nes : List NormalizedEntity) (s : Store) (u : Nat),
    uidsBounded s →
    attrsAt (resolveAll s nes).1 u = foldMergeBag (bagsFor s u nes) (attrsAt s u) := by
  intro nes
  induction nes with
  | nil => intro s u _; rfl
  | cons ne nes ih =>
    intro s u hb
    show attrsAt (resolveAll (resolveEntity s ne).1 nes).1 u = _
    rw [ih _ u (uidsBounded_resolveEntity s ne hb)]
    rw [attrsAt_resolveEntity s ne u hb]
    show _ = foldMergeBag
      ((if (resolveEntity s ne).2.1 = u then [ne.attrs] else []) ++
        bagsFor (resolveEntity s ne).1 u nes) (attrsAt s u)
    unfold foldMergeBag
    rw [List.foldl_append]
    by_cases hc : (resolveEntity s ne).2.1 = u
    · rw [if_pos hc, if_pos hc]
      rfl
    · rw [if_neg hc, if_neg hc]
      rfl

/-! ## Idempotence machinery (C2): the second run merges only -/

/-- The (uid, name, category) skeleton of the node list — everything the
dedup-key resolution can observe. -/
def skel (s : Store) : List (Nat × String × String) :=
  s.nodes.map fun n => (n.uid, n.name, n.category)

lemma skel_mergeAttributes (s : Store) (uid : Nat) (inc : AttrBag) :
    skel (mergeAttributes s uid inc) = skel s := by
  unfold skel mergeAttributes
  rw [List.map_map]
  apply List.map_congr_left
  intro n _
  by_cases hc : n.uid = uid <;> simp [hc]

lemma resolveAll_all_found : ∀ (nes : List NormalizedEntity) (T : Store),
    (∀ ne ∈ nes, ∃ u, resolveUid T ne.dedupKey = some u) →
    skel (resolveAll T nes).1 = skel T ∧
    (resolveAll T nes).1.nextUid = T.nextUid ∧
    (resolveAll T nes).2 = nes.map fun ne => ((resolveUid T ne.dedupKey).getD 0, false) := by
  intro nes
  induction nes with
  | nil => intro T _; exact ⟨rfl, rfl, rfl⟩
  | cons ne nes ih =>
    intro T hall
    rcases hall ne (List.mem_cons_self _ _) with ⟨u, hu⟩
    have hfind : ∃ n, findByDedupKey T ne.dedupKey = some n ∧ n.uid = u := by
      unfold resolveUid at hu
      cases hf : findByDedupKey T ne.dedupKey with
      | none =>
        rw [hf] at hu
        exact Option.noConfusion hu
      | some n =>
        rw [hf] at hu
        refine ⟨n, rfl, ?_⟩
        injection hu
    rcases hfind with ⟨n, hf, hnu⟩
    have hre : resolveEntity T ne = (mergeAttributes T n.uid ne.attrs, n.uid, false) := by
      unfold resolveEntity
      rw [hf]
    have hsame : ∀ k, resolveUid (mergeAttributes T n.uid ne.attrs) k = resolveUid T k :=
      fun k => resolveUid_mergeAttributes T n.uid ne.attrs k
    have htail : ∀ ne' ∈ nes,
        ∃ u', resolveUid (mergeAttributes T n.uid ne.attrs) ne'.dedupKey = some u' := by
      intro ne' h'
      rcases hall ne' (List.mem_cons_of_mem _ h') with ⟨u', hu'⟩
      exact ⟨u', by rw [hsame]; exact hu'⟩
    rcases ih _ htail with ⟨h1, h2, h3⟩
    refine ⟨?_, ?_, ?_⟩
    · show skel (resolveAll (resolveEntity T ne).1 nes).1 = skel T
      rw [hre]
      show skel (resolveAll (mergeAttributes T n.uid ne.attrs) nes).1 = skel T
      rw [h1, skel_mergeAttributes]
    · show (resolveAll (resolveEntity T ne).1 nes).1.nextUid = T.nextUid
      rw [hre]
      show (resolveAll (mergeAttributes T n.uid ne.attrs) nes).1.nextUid = T.nextUid
      rw [h2]
      rfl
    · show (resolveEntity T ne).2 :: (resolveAll (resolveEntity T ne).1 nes).2 = _
      rw [hre, List.map_cons]
      show (n.uid, false) :: (resolveAll (mergeAttributes T n.uid ne.attrs) nes).2 = _
      congr 1
      · rw [hu]
        simp [hnu]
      · rw [h3]
        apply List.map_congr_left
        intro x _
        rw [hsame]

/-- The bags merged into uid `u`, read off a uid trace. -/
def bagsByTrace : List Nat → List NormalizedEntity → Nat → List AttrBag
  | u0 :: us, ne :: nes, u =>
    (if u0 = u then [ne.attrs] else []) ++ bagsByTrace us nes u
  | _, _, _ => []

lemma bagsFor_eq_bagsByTrace : ∀ (nes : List NormalizedEntity) (s : Store) (u : Nat),
    bagsFor s u nes = bagsByTrace ((resolveAll s nes).2.map Prod.fst) nes u := by
  intro nes
  induction nes with
  | nil => intro s u; rfl
  | cons ne nes ih =>
    intro s u
    show (if (resolveEntity s ne).2.1 = u then [ne.attrs] else []) ++
        bagsFor (resolveEntity s ne).1 u nes
      = (if (resolveEntity s ne).2.1 = u then [ne.attrs] else []) ++
        bagsByTrace ((resolveAll (resolveEntity s ne).1 nes).2.map Prod.fst) nes u
    rw [ih]

lemma resolveAll_keys_present : ∀ (nes : List NormalizedEntity) (s : Store),
    (∀ ne ∈ nes, NEcoherent ne) →
    ∀ ne ∈ nes, ∃ u, resolveUid (resolveAll s nes).1 ne.dedupKey = some u := by
  intro nes
  induction nes with
  | nil => intro s _ ne h; cases h
  | cons ne0 nes ih =>
    intro s hco ne hmem
    rcases List.mem_cons.mp hmem with rfl | htail
    · refine ⟨(resolveEntity s ne).2.1, ?_⟩
      show resolveUid (resolveAll (resolveEntity s ne).1 nes).1 ne.dedupKey = _
      exact resolveUid_resolveAll_mono nes _
        (resolveEntity_establishes s ne (hco ne (List.mem_cons_self _ _)))
    · exact ih _ (fun x hx => hco x (List.mem_cons_of_mem _ hx)) ne htail

lemma forall₂_resolveUid_map {S1 : Store} : ∀ {nes : List NormalizedEntity}
    {tr : List (Nat × Bool)},
    List.Forall₂ (fun ne (t : Nat × Bool) =>
      resolveUid S1 ne.dedupKey = some t.1) nes tr →
    nes.map (fun ne => (resolveUid S1 ne.dedupKey).getD 0) = tr.map Prod.fst := by
  intro nes tr h
  induction h with
  | nil => rfl
  | cons h1 _ ih =>
    rw [List.map_cons, List.map_cons, h1, ih]
    rfl

lemma find?_self_of_uidNodup : ∀ {l : List Node}, (l.map Node.uid).Nodup →
    ∀ (i : Nat) (h : i < l.length),
      l.find? (fun n => decide (n.uid = (l.get ⟨i, h⟩).uid)) = some (l.get ⟨i, h⟩) := by
  intro l
  induction l with
  | nil =>
    intro _ i h
    exact absurd h (Nat.not_lt_zero i)
  | cons x xs ih =>
    intro hn i h
    rw [List.map_cons, List.nodup_cons] at hn
    cases i with
    | zero =>
      show (x :: xs).find? (fun n => decide (n.uid = x.uid)) = some x
      simp [List.find?]
    | succ j =>
      have hj : j < xs.length := by
        rw [List.length_cons] at h
        omega
      show (x :: xs).find? (fun n => decide (n.uid = (xs.get ⟨j, hj⟩).uid))
        = some (xs.get ⟨j, hj⟩)
      have hx : ¬ x.uid = (xs.get ⟨j, hj⟩).uid := by
        intro hc
        exact hn.1 (List.mem_map.mpr ⟨xs.get ⟨j, hj⟩, List.get_mem _ _ _, hc.symm⟩)
      have hd : (decide (x.uid = (xs.get ⟨j, hj⟩).uid)) = false := by
        simpa using hx
      simp only [List.find?]
      rw [hd]
      exact ih hn.2 j hj

lemma attrsAt_get {s : Store} (hn : (s.nodes.map Node.uid).Nodup) (i : Nat)
    (h : i < s.nodes.length) :
    attrsAt s (s.nodes.get ⟨i, h⟩).uid = (s.nodes.get ⟨i, h⟩).attrs := by
  unfold attrsAt getNode
  rw [find?_self_of_uidNodup hn i h]

lemma createRelationshipIfAbsent_noop {s : Store} {a b : Nat}
    (h : a = b ∨ canonPair a b ∈ s.edges) :
    createRelationshipIfAbsent s a b = s := by
  unfold createRelationshipIfAbsent
  rcases h with rfl | hmem
  · rw [if_pos rfl]
  · by_cases hab : a = b
    · rw [if_pos hab]
    · rw [if_neg hab, if_pos hmem]

lemma connectOne_noop (x : Nat) : ∀ (ys : List Nat) (s : Store),
    (∀ y ∈ ys, x = y ∨ canonPair x y ∈ s.edges) → connectOne s x ys = s := by
  intro ys
  induction ys with
  | nil => intro s _; rfl
  | cons y ys ih =>
    intro s hall
    show connectOne (createRelationshipIfAbsent s x y) x ys = s
    rw [createRelationshipIfAbsent_noop (hall y (List.mem_cons_self _ _))]
    exact ih s (fun y' h' => hall y' (List.mem_cons_of_mem _ h'))

lemma connectPairs_noop : ∀ (l : List Nat) (s : Store),
    (∀ x ∈ l, ∀ y ∈ l, x = y ∨ canonPair x y ∈ s.edges) → connectPairs s l = s := by
  intro l
  induction l with
  | nil => intro s _; rfl
  | cons x xs ih =>
    intro s hall
    show connectPairs (connectOne s x xs) xs = s
    rw [connectOne_noop x xs s (fun y hy =>
      hall x (List.mem_cons_self _ _) y (List.mem_cons_of_mem _ hy))]
    exact ih s (fun a ha b hb =>
      hall a (List.mem_cons_of_mem _ ha) b (List.mem_cons_of_mem _ hb))

/-- C2: construction is idempotent — from any well-formed store (distinct
uids all below the fresh-uid counter, as the store-assigned-uid invariant
of §3 guarantees), running `construct` on the same batch a second time
returns exactly the store the first run produced: no new node, no new
edge, no attribute change, and the second run reports zero created nodes
and zero created relationships. -/
theorem construct_idempotent (s : Store) (batch : List RawEntity)
    (s1 : Store) (r1 : ConstructResult)
    (hb : uidsBounded s) (hnd : (s.nodes.map Node.uid).Nodup)
    (h1 : construct s batch = .ok (s1, r1)) :
    ∃ r2, construct s1 batch = .ok (s1, r2) ∧
      r2.createdNodes = [] ∧ r2.relationshipsCreated = [] := by
  unfold construct at h1
  cases hna : normalizeAll batch with
  | error err =>
    rw [hna] at h1
    exact Except.noConfusion h1
  | ok nes =>
    rw [hna] at h1
    injection h1 with h1'
    rw [Prod.mk.injEq] at h1'
    obtain ⟨hs1, _⟩ := h1'
    have hco : ∀ ne ∈ nes, NEcoherent ne := normalizeAll_coherent hna
    -- the node list of s1 is the node list after the resolution phase
    have hn1 : s1.nodes = (resolveAll s nes).1.nodes := by
      rw [← hs1, connectPairs_nodes]
    have hx1 : s1.nextUid = (resolveAll s nes).1.nextUid := by
      rw [← hs1, connectPairs_nextUid]
    -- key resolution in s1 agrees with the post-resolution store
    have hrs : ∀ k, resolveUid s1 k = resolveUid (resolveAll s nes).1 k := by
      intro k
      unfold resolveUid
      rw [findByDedupKey_nodes_eq hn1 k]
    have hpres : ∀ ne ∈ nes, ∃ u, resolveUid s1 ne.dedupKey = some u := by
      intro ne hne
      rcases resolveAll_keys_present nes s hco ne hne with ⟨u, hu⟩
      exact ⟨u, by rw [hrs]; exact hu⟩
    have hfa1 : List.Forall₂ (fun ne (t : Nat × Bool) =>
        resolveUid s1 ne.dedupKey = some t.1) nes (resolveAll s nes).2 :=
      List.Forall₂.imp (fun a b hab => by rw [hrs]; exact hab)
        (resolveAll_establishes nes s hco)
    -- the second run merges only
    rcases resolveAll_all_found nes s1 hpres with ⟨hskel2, hnx2, htr2⟩
    -- its uid trace equals the first run's
    have htrfst : (resolveAll s1 nes).2.map Prod.fst
        = (resolveAll s nes).2.map Prod.fst := by
      rw [htr2, List.map_map]
      exact forall₂_resolveUid_map hfa1
    have hR : resolvedUids (resolveAll s1 nes).2 = resolvedUids (resolveAll s nes).2 := by
      unfold resolvedUids
      rw [htrfst]
    have hQe : (resolveAll s1 nes).1.edges = s1.edges := resolveAll_edges nes s1
    -- every pair of resolved uids is already connected in s1
    have hpairs : ∀ x ∈ resolvedUids (resolveAll s nes).2,
        ∀ y ∈ resolvedUids (resolveAll s nes).2,
        x = y ∨ canonPair x y ∈ s1.edges := by
      intro x hx y hy
      by_cases hxy : x = y
      · exact Or.inl hxy
      · refine Or.inr ?_
        rw [← hs1]
        exact (mem_connectPairs _ _ _).mpr (Or.inr ⟨x, hx, y, hy, hxy, rfl⟩)
    have hconn : connectPairs (resolveAll s1 nes).1 (resolvedUids (resolveAll s1 nes).2)
        = (resolveAll s1 nes).1 := by
      rw [hR]
      apply connectPairs_noop
      intro x hx y hy
      rcases hpairs x hx y hy with h | h
      · exact Or.inl h
      · refine Or.inr ?_
        rw [hQe]
        exact h
    -- well-formedness of s1
    have hb1 : uidsBounded s1 := by
      intro n hn
      rw [hn1] at hn
      rw [hx1]
      exact uidsBounded_resolveAll nes s hb n hn
    have hnd1 : (s1.nodes.map Node.uid).Nodup := by
      rw [hn1]
      exact uidNodup_resolveAll nes s hb hnd
    -- the attribute bags merged per uid agree between the two runs
    have hbags : ∀ u, bagsFor s1 u nes = bagsFor s u nes := by
      intro u
      rw [bagsFor_eq_bagsByTrace nes s1 u, bagsFor_eq_bagsByTrace nes s u, htrfst]
    have hat1 : ∀ u, attrsAt s1 u = attrsAt (resolveAll s nes).1 u := by
      intro u
      unfold attrsAt getNode
      rw [hn1]
    -- attributes are a fixed point of the second run
    have hfix : ∀ u, attrsAt (resolveAll s1 nes).1 u = attrsAt s1 u := by
      intro u
      rw [attrsAt_resolveAll nes s1 u hb1, hbags u, hat1 u,
        attrsAt_resolveAll nes s u hb, foldMergeBag_idem,
        ← attrsAt_resolveAll nes s u hb, ← hat1 u]
    -- node lists coincide
    have huid2 : (resolveAll s1 nes).1.nodes.map Node.uid = s1.nodes.map Node.uid := by
      have h := congrArg (fun l => l.map Prod.fst) hskel2
      simp only [skel, List.map_map] at h
      exact h
    have hnd2 : ((resolveAll s1 nes).1.nodes.map Node.uid).Nodup := by
      rw [huid2]
      exact hnd1
    have hlen : (resolveAll s1 nes).1.nodes.length = s1.nodes.length := by
      have h := congrArg List.length hskel2
      simpa [skel] using h
    have hQn : (resolveAll s1 nes).1.nodes = s1.nodes := by
      apply List.ext_get hlen
      intro i hi1 hi2
      have hski : Option.map (fun n : Node => (n.uid, n.name, n.category))
            (resolveAll s1 nes).1.nodes[i]?
          = Option.map (fun n : Node => (n.uid, n.name, n.category)) s1.nodes[i]? := by
        have h := congrArg (fun l => l[i]?) hskel2
        simpa [skel, List.getElem?_map] using h
      rw [List.getElem?_eq_getElem hi1, List.getElem?_eq_getElem hi2] at hski
      simp only [Option.map_some'] at hski
      injection hski with hski'
      rw [Prod.mk.injEq, Prod.mk.injEq] at hski'
      obtain ⟨hu, hnm, hcat⟩ := hski'
      have hgu : ((resolveAll s1 nes).1.nodes.get ⟨i, hi1⟩).uid
          = (s1.nodes.get ⟨i, hi2⟩).uid := hu
      have ha2 : ((resolveAll s1 nes).1.nodes.get ⟨i, hi1⟩).attrs
          = attrsAt (resolveAll s1 nes).1 ((resolveAll s1 nes).1.nodes.get ⟨i, hi1⟩).uid :=
        (attrsAt_get hnd2 i hi1).symm
      have ha1 : attrsAt s1 ((s1.nodes.get ⟨i, hi2⟩).uid)
          = (s1.nodes.get ⟨i, hi2⟩).attrs := attrsAt_get hnd1 i hi2
      refine node_eq_of_fields hu hnm hcat ?_
      rw [ha2, hgu, hfix _, ha1]
    have hQ1 : (resolveAll s1 nes).1 = s1 :=
      store_eq_of_fields hQn hQe hnx2
    -- the second run's reported creations are empty
    have hcreated : ((resolveAll s1 nes).2.filter fun t => t.2).map Prod.fst = [] := by
      rw [htr2]
      have hfil : ((nes.map fun ne =>
          ((resolveUid s1 ne.dedupKey).getD 0, false)).filter fun t => t.2) = [] := by
        rw [List.filter_eq_nil_iff]
        intro a ha
        rcases List.mem_map.mp ha with ⟨ne, _, rfl⟩
        intro hcon
        exact Bool.noConfusion hcon
      rw [hfil]
      rfl
    have hmain : connectPairs (resolveAll s1 nes).1 (resolvedUids (resolveAll s1 nes).2)
        = s1 := by
      rw [hconn, hQ1]
    refine ⟨⟨[], ((resolveAll s1 nes).2.filter fun t => !t.2).map Prod.fst, []⟩, ?_, rfl, rfl⟩
    unfold construct
    rw [hna]
    show Except.ok (connectPairs (resolveAll s1 nes).1 (resolvedUids (resolveAll s1 nes).2),
        (⟨((resolveAll s1 nes).2.filter fun t => t.2).map Prod.fst,
          ((resolveAll s1 nes).2.filter fun t => !t.2).map Prod.fst,
          (connectPairs (resolveAll s1 nes).1
            (resolvedUids (resolveAll s1 nes).2)).edges.drop
              (resolveAll s1 nes).1.edges.length⟩ : ConstructResult))
      = Except.ok (s1, (⟨[], ((resolveAll s1 nes).2.filter fun t => !t.2).map Prod.fst,
          []⟩ : ConstructResult))
    rw [hmain, hcreated, hQe, List.drop_length]

/-- Witness for C2: resubmitting the two-entity demonstration batch to the
store it produced is a no-op reporting zero created nodes and zero created
relationships. -/
theorem construct_idempotent_witness :
    ∃ r2, construct
        ⟨[⟨0, "a", "ORG", AttrBag.none⟩, ⟨1, "b", "GPE", AttrBag.none⟩], [(0, 1)], 2⟩
        [⟨"a", "ORG", AttrBag.none⟩, ⟨"b", "GPE", AttrBag.none⟩]
      = .ok (⟨[⟨0, "a", "ORG", AttrBag.none⟩, ⟨1, "b", "GPE", AttrBag.none⟩],
          [(0, 1)], 2⟩, r2) ∧
      r2.createdNodes = [] ∧ r2.relationshipsCreated = [] :=
  construct_idempotent emptyStore
    [⟨"a", "ORG", AttrBag.none⟩, ⟨"b", "GPE", AttrBag.none⟩]
    ⟨[⟨0, "a", "ORG", AttrBag.none⟩, ⟨1, "b", "GPE", AttrBag.none⟩], [(0, 1)], 2⟩
    ⟨[0, 1], [], [(0, 1)]⟩
    (by intro n hn; cases hn) (by exact List.Pairwise.nil) (by decide)

end ClimateScanner
